import Mathlib

/-!
Verification of the index-allocation core of the pcap-stats repository.

The bottom layer is `DoubleChain` (file double_chain.cpp / double_chain.h):
a fixed-capacity arena of `index_range` slots realised as an array of
`index_range + 2` link cells (two sentinel cells at positions 0 and 1,
real slots shifted by `INDEX_SHIFT = 2`).  Cell 0 heads the doubly linked
"alloc" (occupied) list, cell 1 heads the singly linked "free" list
(free cells keep `prev == next`).

The embedding below translates each C++ member function statement by
statement: every assignment through a reference into the `cells` vector
becomes one `setPrev`/`setNext` on the cell list, reads re-read the
current list so aliasing behaves exactly as in the source.  Machine
integers: cell indices are `u64` values that stay small, modelled as
`Nat`; timestamps are `time_ns_t = int64_t`, modelled as `Int` (no
arithmetic in the source comes near the 64-bit boundaries exercised by
the claims).  Out parameters orphaned on a `false` return are modelled
with `Option`.
-/

/-- One link record of the arena, `struct dchain_cell_t` from the source. -/
structure dchain_cell_t where
  prev : Nat
  next : Nat
deriving DecidableEq, Repr

instance : Inhabited dchain_cell_t := ⟨⟨0, 0⟩⟩

/-- State of `class DoubleChain`: the cell vector (length `capacity + 2`)
and the per-slot timestamp vector (length `capacity`). -/
structure DoubleChain where
  cells : List dchain_cell_t
  timestamps : List Int
deriving DecidableEq, Repr

/-- `DCHAIN_RESERVED` from the source. -/
def DCHAIN_RESERVED : Nat := 2

/-- `EXPIRATION_TIME_NS` from the source: one second, a fixed constant. -/
def EXPIRATION_TIME_NS : Int := 1000000000

/-- `ALLOC_LIST_HEAD` from the source. -/
def ALLOC_LIST_HEAD : Nat := 0

/-- `FREE_LIST_HEAD` from the source. -/
def FREE_LIST_HEAD : Nat := 1

/-- `INDEX_SHIFT` from the source. -/
def INDEX_SHIFT : Nat := 2

/-- Read `cells[i]` (in the source every read is in bounds; the default
cell stands for the indeterminate value an out-of-bounds C++ read would
yield). -/
def getCell (cs : List dchain_cell_t) (i : Nat) : dchain_cell_t :=
  cs.getD i ⟨0, 0⟩

/-- The assignment `cells[i].prev = v` of the source. -/
def setPrev (cs : List dchain_cell_t) (i v : Nat) : List dchain_cell_t :=
  cs.set i ⟨v, (getCell cs i).next⟩

/-- The assignment `cells[i].next = v` of the source. -/
def setNext (cs : List dchain_cell_t) (i v : Nat) : List dchain_cell_t :=
  cs.set i ⟨(getCell cs i).prev, v⟩

/-- Body of the constructor loop, running `k` more iterations starting at
counter value `i`: threads cell `i` to cell `i+1` on the free list. -/
def initFreeCellsAux (cs : List dchain_cell_t) (i : Nat) :
    Nat → List dchain_cell_t × Nat
  | 0 => (cs, i)
  | k + 1 =>
    initFreeCellsAux (setNext (setPrev cs i (i + 1)) i (i + 1)) (i + 1) k

/-- The constructor loop `while (i < index_range + INDEX_SHIFT - 1)`:
starting at `i`, it runs exactly `stop - i` iterations.  Returns the final
cells together with the final value of `i` (used for the last write). -/
def initFreeCells (cs : List dchain_cell_t) (i stop : Nat) :
    List dchain_cell_t × Nat :=
  initFreeCellsAux cs i (stop - i)

/-- The constructor `DoubleChain::DoubleChain(u64 index_range)`.  The two
vectors are value-initialized (zero), then the sentinel cells and the free
chain are written.  The final write targets index `(initFreeCells ...).2`,
which for `index_range = 0` is out of bounds in the source (see the bounds
analysis further below); `List.set` silently ignores it here. -/
def mkDoubleChain (index_range : Nat) : DoubleChain :=
  let cs := List.replicate (index_range + DCHAIN_RESERVED) (⟨0, 0⟩ : dchain_cell_t)
  let cs := setNext (setPrev cs ALLOC_LIST_HEAD 0) ALLOC_LIST_HEAD 0
  let cs := setNext cs FREE_LIST_HEAD INDEX_SHIFT
  let cs := setPrev cs FREE_LIST_HEAD (getCell cs FREE_LIST_HEAD).next
  let p := initFreeCells cs INDEX_SHIFT (index_range + INDEX_SHIFT - 1)
  let cs := setNext p.1 p.2 FREE_LIST_HEAD
  let cs := setPrev cs p.2 (getCell cs p.2).next
  ⟨cs, List.replicate index_range 0⟩

/-- Lines 104-110 of the source (shared tail of `allocate_new_index` and
`rejuvenate_index`): link cell `x` at the newest end of the alloc list,
right before the sentinel.  `al_head.prev` is read before the writes (the
source reads it at a moment when no write has touched `cells[0].prev`). -/
def appendEnd (cs : List dchain_cell_t) (x : Nat) : List dchain_cell_t :=
  let ahp := (getCell cs ALLOC_LIST_HEAD).prev
  let cs := setNext cs x ALLOC_LIST_HEAD
  let cs := setPrev cs x ahp
  let cs := setNext cs ahp x
  setPrev cs ALLOC_LIST_HEAD x

/-- The unlink step shared by `rejuvenate_index` and `free_index`:
`cells[p].next = n; cells[n].prev = p` where `p`/`n` are the neighbours
of the cell being unlinked. -/
def spliceOut (cs : List dchain_cell_t) (p n : Nat) : List dchain_cell_t :=
  setPrev (setNext cs p n) n p

/-- Lines 209-214 of `free_index`: push cell `x` on the head of the free
list (`freedp.next = fr_head.next; freedp.prev = freedp.next;
fr_head.next = freed; fr_head.prev = fr_head.next`). -/
def pushFree (cs : List dchain_cell_t) (x : Nat) : List dchain_cell_t :=
  let cs := setNext cs x (getCell cs FREE_LIST_HEAD).next
  let cs := setPrev cs x (getCell cs x).next
  let cs := setNext cs FREE_LIST_HEAD x
  setPrev cs FREE_LIST_HEAD (getCell cs FREE_LIST_HEAD).next

/-- Lines 101-102 of `allocate_new_index`: `fl_head.next = v;
fl_head.prev = fl_head.next` (pop the head of the free list). -/
def popFree (cs : List dchain_cell_t) (v : Nat) : List dchain_cell_t :=
  let cs := setNext cs FREE_LIST_HEAD v
  setPrev cs FREE_LIST_HEAD (getCell cs FREE_LIST_HEAD).next

/-- `DoubleChain::allocate_new_index`.  The boolean result plus the out
parameter become an `Option Nat` (the out parameter is not written on
failure). -/
def DoubleChain.allocate_new_index (c : DoubleChain) (time : Int) :
    Option Nat × DoubleChain :=
  let allocated := (getCell c.cells FREE_LIST_HEAD).next
  if allocated = FREE_LIST_HEAD then (none, c)
  else
    let cs := popFree c.cells (getCell c.cells allocated).next
    let cs := appendEnd cs allocated
    let index_out := allocated - INDEX_SHIFT
    (some index_out, ⟨cs, c.timestamps.set index_out time⟩)

/-- `DoubleChain::rejuvenate_index`. -/
def DoubleChain.rejuvenate_index (c : DoubleChain) (index : Nat) (time : Int) :
    Bool × DoubleChain :=
  let lifted := index + INDEX_SHIFT
  let lifted_next := (getCell c.cells lifted).next
  let lifted_prev := (getCell c.cells lifted).prev
  if lifted_next = lifted_prev then
    if lifted_next ≠ ALLOC_LIST_HEAD then (false, c)
    else (true, c)
  else
    let cs := spliceOut c.cells lifted_prev lifted_next
    let cs := appendEnd cs lifted
    (true, ⟨cs, c.timestamps.set index time⟩)

/-- `DoubleChain::free_index`. -/
def DoubleChain.free_index (c : DoubleChain) (index : Nat) :
    Bool × DoubleChain :=
  let freed := index + INDEX_SHIFT
  let freed_prev := (getCell c.cells freed).prev
  let freed_next := (getCell c.cells freed).next
  if freed_next = freed_prev ∧ freed_prev ≠ ALLOC_LIST_HEAD then (false, c)
  else
    let cs := spliceOut c.cells freed_prev freed_next
    let cs := pushFree cs freed
    (true, ⟨cs, c.timestamps⟩)

/-- `DoubleChain::get_oldest_index` (const). -/
def DoubleChain.get_oldest_index (c : DoubleChain) : Option Nat :=
  let n := (getCell c.cells ALLOC_LIST_HEAD).next
  if n = ALLOC_LIST_HEAD then none
  else some (n - INDEX_SHIFT)

/-- `DoubleChain::is_index_allocated` (const). -/
def DoubleChain.is_index_allocated (c : DoubleChain) (index : Nat) : Bool :=
  let lifted := index + INDEX_SHIFT
  let lifted_next := (getCell c.cells lifted).next
  let lifted_prev := (getCell c.cells lifted).prev
  if lifted_next = lifted_prev then
    if lifted_next ≠ ALLOC_LIST_HEAD then false else true
  else true

/-- `DoubleChain::expire_one_index`.  The out parameter is meaningful only
when the function returns true, hence the `Option`. -/
def DoubleChain.expire_one_index (c : DoubleChain) (time : Int) :
    Option Nat × DoubleChain :=
  match c.get_oldest_index with
  | none => (none, c)
  | some index_out =>
    if c.timestamps.getD index_out 0 < time - EXPIRATION_TIME_NS then
      let r := c.free_index index_out
      (if r.1 then some index_out else none, r.2)
    else (none, c)

/-- `isPath f a l b`: following `f` from `a` visits `l` in order, ending at `b`. -/
def isPath (f : Nat → Nat) (a : Nat) : List Nat → Nat → Prop
  | [], b => f a = b
  | x :: xs, b => f a = x ∧ isPath f x xs b

instance instDecidableIsPath (f : Nat → Nat) (a b : Nat) :
    (l : List Nat) → Decidable (isPath f a l b)
  | [] => decidable_of_iff (f a = b) Iff.rfl
  | x :: xs => @instDecidableAnd _ _ _ (instDecidableIsPath f x b xs)

/-- Successor field of cell `i`. -/
def cnxt (cs : List dchain_cell_t) (i : Nat) : Nat := (getCell cs i).next

/-- Predecessor field of cell `i`. -/
def cprv (cs : List dchain_cell_t) (i : Nat) : Nat := (getCell cs i).prev

/-! ### The representation invariant of the arena

`CellsRep cs n as fs` states that the cell array `cs` of a capacity-`n`
arena holds the occupied list `as` (a cycle through sentinel 0, doubly
linked) and the free list `fs` (a cycle through sentinel 1, with
`prev = next` on every free cell), and that the real cells `2 .. n+1`
are partitioned between the two lists. -/

structure CellsRep (cs : List dchain_cell_t) (n : Nat) (as fs : List Nat) : Prop where
  len : cs.length = n + 2
  allocNext : isPath (cnxt cs) 0 as 0
  allocPrev : isPath (cprv cs) 0 as.reverse 0
  freeNext : isPath (cnxt cs) 1 fs 1
  freeEq : ∀ x ∈ fs, cprv cs x = cnxt cs x
  freeHeadEq : cprv cs 1 = cnxt cs 1
  perm : (as ++ fs).Perm (List.range' 2 n)

/-- The representation invariant of a `DoubleChain` state: its capacity is
the length of the timestamp vector. -/
def DChainRep (c : DoubleChain) (as fs : List Nat) : Prop :=
  CellsRep c.cells c.timestamps.length as fs

/-- One arena operation, with the arguments the caller supplies. -/
inductive DCOp where
  | alloc (time : Int)
  | touch (index : Nat) (time : Int)
  | free (index : Nat)
  | expire (time : Int)
deriving DecidableEq, Repr

/-- Apply one operation to the arena (the result value is discarded). -/
def applyOp (c : DoubleChain) : DCOp → DoubleChain
  | .alloc t => (c.allocate_new_index t).2
  | .touch i t => (c.rejuvenate_index i t).2
  | .free i => (c.free_index i).2
  | .expire t => (c.expire_one_index t).2

/-- Run a sequence of operations from a starting state. -/
def runOps (c : DoubleChain) (ops : List DCOp) : DoubleChain :=
  ops.foldl applyOp c

/-- An operation is valid for capacity `n` when any slot argument is a real
slot id (out-of-range ids make the C++ source read and write out of
bounds, which is undefined behaviour there). -/
def validOp (n : Nat) : DCOp → Prop
  | .touch i _ => i < n
  | .free i => i < n
  | _ => True

instance instDecValidOp (n : Nat) : (op : DCOp) → Decidable (validOp n op)
  | .alloc _ => inferInstanceAs (Decidable True)
  | .touch i _ => inferInstanceAs (Decidable (i < n))
  | .free i => inferInstanceAs (Decidable (i < n))
  | .expire _ => inferInstanceAs (Decidable True)

/-- The arena satisfies the representation invariant for some pair of lists. -/
def DCInv (c : DoubleChain) : Prop := ∃ as fs, DChainRep c as fs

/-- Results of a run of consecutive allocations at the given times. -/
def allocResults (c : DoubleChain) : List Int → List (Option Nat) × DoubleChain
  | [] => ([], c)
  | t :: ts =>
    let r := c.allocate_new_index t
    let rest := allocResults r.2 ts
    (r.1 :: rest.1, rest.2)

/-- Modelled from the spec: the operation `expireOne(now, maxAge)` as the
specification describes it, with the idle threshold `maxAge` a parameter
supplied by the caller (the source has no such parameter; this definition
exists to compare the described behaviour against `expire_one_index`). -/
def expireOneSpec (c : DoubleChain) (now maxAge : Int) : Option Nat × DoubleChain :=
  match c.get_oldest_index with
  | none => (none, c)
  | some idx =>
    if c.timestamps.getD idx 0 < now - maxAge then
      let r := c.free_index idx
      (if r.1 then some idx else none, r.2)
    else (none, c)

/-- Lookup in the key-to-slot table (`flow_to_index.contains` / `at`). -/
def lookupSlot {K : Type} [DecidableEq K] (l : List (K × Nat)) (k : K) : Option Nat :=
  (l.find? (fun p => decide (p.1 = k))).map (fun p => p.2)

/-- `flow_to_index.erase(flow)`. -/
def eraseKey {K : Type} [DecidableEq K] (l : List (K × Nat)) (k : K) : List (K × Nat) :=
  l.filter (fun p => ! decide (p.1 = k))

/-- `flow_to_index[flow] = index` (upsert semantics of `operator[]`). -/
def mapInsert {K : Type} [DecidableEq K] (l : List (K × Nat)) (k : K) (v : Nat) :
    List (K × Nat) :=
  (k, v) :: eraseKey l k

/-- State of `class FlowTracker`. -/
structure FlowTracker (K : Type) where
  double_chain : DoubleChain
  flow_to_index : List (K × Nat)
  index_to_flow : List K
deriving DecidableEq

/-- `FlowTracker::FlowTracker(u64 capacity)`. -/
def mkFlowTracker (K : Type) [Inhabited K] (capacity : Nat) : FlowTracker K :=
  ⟨mkDoubleChain capacity, [], List.replicate capacity default⟩

/-- `FlowTracker::has_flow` (const). -/
def FlowTracker.has_flow {K : Type} [DecidableEq K] (t : FlowTracker K) (f : K) : Bool :=
  (lookupSlot t.flow_to_index f).isSome

/-- `FlowTracker::add_flow`.  The source panics (aborts the process) when
the arena is exhausted; the abort is modelled as `none`. -/
def FlowTracker.add_flow {K : Type} [DecidableEq K] (t : FlowTracker K) (f : K)
    (now : Int) : Option (FlowTracker K) :=
  if t.has_flow f then some t
  else
    match t.double_chain.allocate_new_index now with
    | (none, _) => none
    | (some index_out, dc) =>
      some ⟨dc, mapInsert t.flow_to_index f index_out, t.index_to_flow.set index_out f⟩

/-- The `while (double_chain.expire_one_index(now, index_out))` loop of
`FlowTracker::expire_flows`, with an explicit iteration bound.  Each
successful call frees one occupied slot, so under the representation
invariant the loop runs at most `capacity` times and the bound chosen in
`FlowTracker.expire_flows` (the vector length, i.e. the capacity) never
truncates the loop. -/
def FlowTracker.expire_flows_aux {K : Type} [DecidableEq K] [Inhabited K] :
    Nat → FlowTracker K → Int → Nat × FlowTracker K
  | 0, t, _ => (0, t)
  | fuel + 1, t, now =>
    match t.double_chain.expire_one_index now with
    | (none, dc) => (0, ⟨dc, t.flow_to_index, t.index_to_flow⟩)
    | (some index_out, dc) =>
      let flow := t.index_to_flow.getD index_out default
      let t' : FlowTracker K := ⟨dc, eraseKey t.flow_to_index flow, t.index_to_flow⟩
      let r := FlowTracker.expire_flows_aux fuel t' now
      (r.1 + 1, r.2)

/-- `FlowTracker::expire_flows`. -/
def FlowTracker.expire_flows {K : Type} [DecidableEq K] [Inhabited K]
    (t : FlowTracker K) (now : Int) : Nat × FlowTracker K :=
  FlowTracker.expire_flows_aux t.index_to_flow.length t now

/-- The joint invariant of the Keyed Tracker: the arena satisfies its
representation invariant, the reverse table has capacity length, keys are
unique, every tracked key points at an occupied slot whose reverse entry is
that key, and every occupied slot's reverse entry is a tracked key mapping
back to that slot. -/
def TrackerRep {K : Type} [DecidableEq K] [Inhabited K] (t : FlowTracker K)
    (as fs : List Nat) : Prop :=
  DChainRep t.double_chain as fs ∧
  t.index_to_flow.length = t.double_chain.timestamps.length ∧
  (t.flow_to_index.map Prod.fst).Nodup ∧
  (∀ k s, lookupSlot t.flow_to_index k = some s →
    s + 2 ∈ as ∧ t.index_to_flow.getD s default = k) ∧
  (∀ x ∈ as, lookupSlot t.flow_to_index (t.index_to_flow.getD (x - 2) default) =
    some (x - 2))

/-- One Keyed Tracker operation. -/
inductive FTOp (K : Type) where
  | add (k : K) (now : Int)
  | expire (now : Int)

/-- Apply one tracker operation; an aborting `add_flow` (arena exhausted,
the source calls `panic`) terminates the program, so no state change is
observed in that case. -/
def applyFTOp {K : Type} [DecidableEq K] [Inhabited K] (t : FlowTracker K) :
    FTOp K → FlowTracker K
  | .add k now => (t.add_flow k now).getD t
  | .expire now => (t.expire_flows now).2

/-- Run a sequence of tracker operations from a starting state. -/
def runFTOps {K : Type} [DecidableEq K] [Inhabited K] (t : FlowTracker K)
    (ops : List (FTOp K)) : FlowTracker K :=
  ops.foldl applyFTOp t

/-- The tracker invariant holds for some pair of lists. -/
def TrackerInv {K : Type} [DecidableEq K] [Inhabited K] (t : FlowTracker K) : Prop :=
  ∃ as fs, TrackerRep t as fs

/-- The cell index of the final constructor write (the `cells[i]` store
after the threading loop): the loop counter value when the loop exits. -/
def mkDoubleChainLastWriteIndex (n : Nat) : Nat :=
  (initFreeCells (List.replicate (n + DCHAIN_RESERVED) (⟨0, 0⟩ : dchain_cell_t))
    INDEX_SHIFT (n + INDEX_SHIFT - 1)).2

/-- Every cell index the constructor writes: the two sentinel heads, the
loop cells, and the final cell. -/
def mkDoubleChainWriteIndices (n : Nat) : List Nat :=
  ALLOC_LIST_HEAD :: FREE_LIST_HEAD ::
    (List.range' INDEX_SHIFT (n + INDEX_SHIFT - 1 - INDEX_SHIFT) ++
      [mkDoubleChainLastWriteIndex n])

theorem isPath_nil {f : Nat → Nat} {a b : Nat} : isPath f a [] b ↔ f a = b :=
  Iff.rfl

theorem isPath_cons {f : Nat → Nat} {a b x : Nat} {l : List Nat} :
    isPath f a (x :: l) b ↔ f a = x ∧ isPath f x l b :=
  Iff.rfl

theorem isPath_append_mid {f : Nat → Nat} {a b x : Nat} {l₁ l₂ : List Nat} :
    isPath f a (l₁ ++ x :: l₂) b ↔ isPath f a l₁ x ∧ isPath f x l₂ b := by
  induction l₁ generalizing a with
  | nil => simp [isPath_cons, isPath_nil]
  | cons y ys ih => simp [isPath_cons, ih, and_assoc]

/-- A path is preserved when the successor function changes nowhere on it;
the start node may be renamed as long as the value at it is preserved. -/
theorem isPath_of_agree {f g : Nat → Nat} {a a' b : Nat} {l : List Nat}
    (h : isPath f a l b) (ha : g a' = f a) (hl : ∀ x ∈ l, g x = f x) :
    isPath g a' l b := by
  induction l generalizing a a' with
  | nil => exact ha.trans h
  | cons x xs ih =>
    obtain ⟨h1, h2⟩ := h
    exact ⟨ha.trans h1, ih h2 (hl x (by simp)) (fun z hz => hl z (by simp [hz]))⟩

/-- Redirecting the final edge of a nonempty path. -/
theorem isPath_redirect_concat {f g : Nat → Nat} {a b y e : Nat} {l : List Nat}
    (h : isPath f a (l ++ [e]) b) (ha : g a = f a)
    (hl : ∀ x ∈ l, g x = f x) (he : g e = y) :
    isPath g a (l ++ [e]) y := by
  rw [isPath_append_mid] at h ⊢
  exact ⟨isPath_of_agree h.1 ha hl, he⟩

/-- Every node of a path is sent by `f` either into the path or to the
endpoint. -/
theorem isPath_mem_next {f : Nat → Nat} {a b : Nat} {l : List Nat}
    (h : isPath f a l b) : ∀ x ∈ l, f x = b ∨ f x ∈ l := by
  induction l generalizing a with
  | nil => intro x hx; cases hx
  | cons y ys ih =>
    obtain ⟨h1, h2⟩ := h
    intro x hx
    rcases List.mem_cons.1 hx with rfl | hx
    · cases ys with
      | nil => exact Or.inl h2
      | cons z zs => exact Or.inr (by simpa using Or.inr (Or.inl h2.1))
    · rcases ih h2 x hx with h | h
      · exact Or.inl h
      · exact Or.inr (by simp [h])

/-! ### Pointwise description of cell updates -/

theorem getD_set_self {α : Type} [Inhabited α] (cs : List α) (i : Nat) (x d : α)
    (h : i < cs.length) : (cs.set i x).getD i d = x := by
  induction cs generalizing i with
  | nil => simp at h
  | cons c cs ih =>
    cases i with
    | zero => simp
    | succ n => simpa using ih n (by simpa using h)

theorem getD_set_ne {α : Type} [Inhabited α] (cs : List α) (i j : Nat) (x d : α)
    (h : j ≠ i) : (cs.set i x).getD j d = cs.getD j d := by
  induction cs generalizing i j with
  | nil => simp
  | cons c cs ih =>
    cases i with
    | zero => cases j with
      | zero => exact absurd rfl h
      | succ m => simp
    | succ n => cases j with
      | zero => simp
      | succ m => simpa using ih n m (fun e => h (by simp [e]))

theorem getCell_set_self (cs : List dchain_cell_t) (i : Nat) (x : dchain_cell_t)
    (h : i < cs.length) : getCell (cs.set i x) i = x :=
  getD_set_self cs i x _ h

theorem getCell_set_ne (cs : List dchain_cell_t) (i j : Nat) (x : dchain_cell_t)
    (h : j ≠ i) : getCell (cs.set i x) j = getCell cs j :=
  getD_set_ne cs i j x _ h

theorem length_setPrev (cs : List dchain_cell_t) (i v : Nat) :
    (setPrev cs i v).length = cs.length := by simp [setPrev]

theorem length_setNext (cs : List dchain_cell_t) (i v : Nat) :
    (setNext cs i v).length = cs.length := by simp [setNext]

theorem getCell_setPrev_self (cs : List dchain_cell_t) (i v : Nat)
    (h : i < cs.length) :
    getCell (setPrev cs i v) i = ⟨v, (getCell cs i).next⟩ :=
  getCell_set_self _ _ _ h

theorem getCell_setPrev_ne (cs : List dchain_cell_t) (i j v : Nat) (h : j ≠ i) :
    getCell (setPrev cs i v) j = getCell cs j :=
  getCell_set_ne _ _ _ _ h

theorem getCell_setNext_self (cs : List dchain_cell_t) (i v : Nat)
    (h : i < cs.length) :
    getCell (setNext cs i v) i = ⟨(getCell cs i).prev, v⟩ :=
  getCell_set_self _ _ _ h

theorem getCell_setNext_ne (cs : List dchain_cell_t) (i j v : Nat) (h : j ≠ i) :
    getCell (setNext cs i v) j = getCell cs j :=
  getCell_set_ne _ _ _ _ h

/-! ### Field-level effect of the write combinators -/

theorem getD_set_oob {α : Type} [Inhabited α] (cs : List α) (i : Nat) (x d : α)
    (h : ¬ i < cs.length) : (cs.set i x).getD i d = cs.getD i d := by
  induction cs generalizing i with
  | nil => simp
  | cons c cs ih =>
    cases i with
    | zero => simp at h
    | succ n => simpa using ih n (by simp at h; omega)

theorem getCell_set (cs : List dchain_cell_t) (i j : Nat) (x : dchain_cell_t) :
    getCell (cs.set i x) j =
      if j = i ∧ i < cs.length then x else getCell cs j := by
  by_cases h : j = i
  · subst h
    by_cases h2 : j < cs.length
    · simp [h2, getCell_set_self _ _ _ h2]
    · simp only [getCell]
      rw [getD_set_oob _ _ _ _ h2]
      simp [h2]
  · simp [h, getCell_set_ne _ _ _ _ h]

theorem getCell_setPrev (cs : List dchain_cell_t) (i v j : Nat) :
    getCell (setPrev cs i v) j =
      if j = i ∧ i < cs.length then ⟨v, (getCell cs i).next⟩ else getCell cs j :=
  getCell_set cs i j _

theorem getCell_setNext (cs : List dchain_cell_t) (i v j : Nat) :
    getCell (setNext cs i v) j =
      if j = i ∧ i < cs.length then ⟨(getCell cs i).prev, v⟩ else getCell cs j :=
  getCell_set cs i j _

theorem length_spliceOut (cs : List dchain_cell_t) (p n : Nat) :
    (spliceOut cs p n).length = cs.length := by
  simp [spliceOut, setPrev, setNext]

theorem length_pushFree (cs : List dchain_cell_t) (x : Nat) :
    (pushFree cs x).length = cs.length := by
  simp [pushFree, setPrev, setNext]

theorem length_appendEnd (cs : List dchain_cell_t) (x : Nat) :
    (appendEnd cs x).length = cs.length := by
  simp [appendEnd, setPrev, setNext]

theorem length_popFree (cs : List dchain_cell_t) (v : Nat) :
    (popFree cs v).length = cs.length := by
  simp [popFree, setPrev, setNext]

theorem spliceOut_cnxt_p (cs : List dchain_cell_t) (p n : Nat)
    (hp : p < cs.length) (hn : n < cs.length) :
    cnxt (spliceOut cs p n) p = n := by
  by_cases h : p = n <;>
    simp [spliceOut, cnxt, getCell_setPrev, getCell_setNext, length_setPrev, length_setNext, h, hp, hn]

theorem spliceOut_cprv_n (cs : List dchain_cell_t) (p n : Nat)
    (hn : n < cs.length) :
    cprv (spliceOut cs p n) n = p := by
  simp [spliceOut, cprv, getCell_setPrev, getCell_setNext, length_setPrev, length_setNext, hn]

theorem spliceOut_cnxt_ne (cs : List dchain_cell_t) (p n z : Nat)
    (hz : z ≠ p) :
    cnxt (spliceOut cs p n) z = cnxt cs z := by
  by_cases h : z = n
  · subst h
    have hnp : z ≠ p := hz
    simp [spliceOut, cnxt, getCell_setPrev, getCell_setNext, length_setPrev,
      length_setNext, hnp]
    split <;> rfl
  · simp [spliceOut, cnxt, getCell_setPrev, getCell_setNext, length_setPrev,
      length_setNext, h, hz]

theorem spliceOut_cprv_ne (cs : List dchain_cell_t) (p n z : Nat)
    (hz : z ≠ n) :
    cprv (spliceOut cs p n) z = cprv cs z := by
  by_cases h : z = p
  · subst h
    have hpn : z ≠ n := hz
    simp [spliceOut, cprv, getCell_setPrev, getCell_setNext, length_setPrev,
      length_setNext, hpn]
    split <;> rfl
  · simp [spliceOut, cprv, getCell_setPrev, getCell_setNext, length_setPrev,
      length_setNext, h, hz]

theorem spliceOut_getCell_ne (cs : List dchain_cell_t) (p n z : Nat)
    (hzp : z ≠ p) (hzn : z ≠ n) :
    getCell (spliceOut cs p n) z = getCell cs z := by
  simp [spliceOut, getCell_setPrev, getCell_setNext, length_setPrev, length_setNext, hzp, hzn]

theorem popFree_getCell_one (cs : List dchain_cell_t) (v : Nat)
    (h1 : 1 < cs.length) :
    getCell (popFree cs v) 1 = ⟨v, v⟩ := by
  simp [popFree, FREE_LIST_HEAD, getCell_setPrev, getCell_setNext, length_setPrev, length_setNext, h1]

theorem popFree_getCell_ne (cs : List dchain_cell_t) (v z : Nat) (hz : z ≠ 1) :
    getCell (popFree cs v) z = getCell cs z := by
  simp [popFree, FREE_LIST_HEAD, getCell_setPrev, getCell_setNext, length_setPrev, length_setNext, hz]

theorem pushFree_getCell_one (cs : List dchain_cell_t) (x : Nat)
    (h1 : 1 < cs.length) (hx1 : x ≠ 1) :
    getCell (pushFree cs x) 1 = ⟨x, x⟩ := by
  simp [pushFree, FREE_LIST_HEAD, getCell_setPrev, getCell_setNext, length_setPrev, length_setNext,
    h1, hx1, Ne.symm hx1]

theorem pushFree_getCell_x (cs : List dchain_cell_t) (x : Nat)
    (hx : x < cs.length) (hx1 : x ≠ 1) :
    getCell (pushFree cs x) x = ⟨cnxt cs 1, cnxt cs 1⟩ := by
  simp [pushFree, FREE_LIST_HEAD, cnxt, getCell_setPrev, getCell_setNext, length_setPrev, length_setNext,
    hx, hx1, Ne.symm hx1]

theorem pushFree_getCell_ne (cs : List dchain_cell_t) (x z : Nat)
    (hz1 : z ≠ 1) (hzx : z ≠ x) :
    getCell (pushFree cs x) z = getCell cs z := by
  simp [pushFree, FREE_LIST_HEAD, getCell_setPrev, getCell_setNext, length_setPrev, length_setNext,
    hz1, hzx]

theorem appendEnd_getCell_x (cs : List dchain_cell_t) (x : Nat)
    (hx : x < cs.length) (hx0 : x ≠ 0) (hxa : x ≠ cprv cs 0) :
    getCell (appendEnd cs x) x = ⟨cprv cs 0, 0⟩ := by
  have hxa' : x ≠ (getCell cs 0).prev := by simpa [cprv] using hxa
  simp [appendEnd, ALLOC_LIST_HEAD, cprv, getCell_setPrev, getCell_setNext,
    length_setPrev, length_setNext, hx, hx0, hxa']

theorem appendEnd_cprv_zero (cs : List dchain_cell_t) (x : Nat)
    (h0 : 0 < cs.length) :
    cprv (appendEnd cs x) 0 = x := by
  simp [appendEnd, ALLOC_LIST_HEAD, cprv, getCell_setPrev, getCell_setNext, length_setPrev, length_setNext, h0]

theorem appendEnd_cnxt_ahp (cs : List dchain_cell_t) (x : Nat)
    (ha : cprv cs 0 < cs.length) (h0 : 0 < cs.length) (hxa : x ≠ cprv cs 0) :
    cnxt (appendEnd cs x) (cprv cs 0) = x := by
  have hxa' : x ≠ (getCell cs 0).prev := by simpa [cprv] using hxa
  by_cases h : cprv cs 0 = 0
  · have h' : (getCell cs 0).prev = 0 := by simpa [cprv] using h
    simp [appendEnd, ALLOC_LIST_HEAD, cnxt, cprv, getCell_setPrev, getCell_setNext,
      length_setPrev, length_setNext, h', h0, hxa', Ne.symm hxa']
  · have h' : ¬ (getCell cs 0).prev = 0 := by simpa [cprv] using h
    have ha' : (getCell cs 0).prev < cs.length := by simpa [cprv] using ha
    simp [appendEnd, ALLOC_LIST_HEAD, cnxt, cprv, getCell_setPrev, getCell_setNext,
      length_setPrev, length_setNext, h', ha', hxa', Ne.symm hxa']

theorem appendEnd_cprv_ahp_ne (cs : List dchain_cell_t) (x : Nat)
    (h : cprv cs 0 ≠ 0) (hxa : x ≠ cprv cs 0) :
    cprv (appendEnd cs x) (cprv cs 0) = cprv cs (cprv cs 0) := by
  have hxa' : x ≠ (getCell cs 0).prev := by simpa [cprv] using hxa
  have h' : ¬ (getCell cs 0).prev = 0 := by simpa [cprv] using h
  simp [appendEnd, ALLOC_LIST_HEAD, cnxt, cprv, getCell_setPrev, getCell_setNext,
    length_setPrev, length_setNext, h', hxa', Ne.symm hxa']
  split <;> rfl

theorem appendEnd_cnxt_zero_ne (cs : List dchain_cell_t) (x : Nat)
    (h : cprv cs 0 ≠ 0) (hx0 : x ≠ 0) :
    cnxt (appendEnd cs x) 0 = cnxt cs 0 := by
  have h' : ¬ (getCell cs 0).prev = 0 := by simpa [cprv] using h
  have h'' : (0 : Nat) ≠ (getCell cs 0).prev := fun e => h' e.symm
  simp [appendEnd, ALLOC_LIST_HEAD, cnxt, cprv, getCell_setPrev, getCell_setNext,
    length_setPrev, length_setNext, h'', hx0, Ne.symm hx0]
  split <;> rfl

theorem appendEnd_getCell_ne (cs : List dchain_cell_t) (x z : Nat)
    (hzx : z ≠ x) (hz0 : z ≠ 0) (hza : z ≠ cprv cs 0) :
    getCell (appendEnd cs x) z = getCell cs z := by
  have hza' : z ≠ (getCell cs 0).prev := by simpa [cprv] using hza
  simp [appendEnd, ALLOC_LIST_HEAD, getCell_setPrev, getCell_setNext,
    length_setPrev, length_setNext, hzx, hz0, hza']

theorem cnxt_congr {cs cs' : List dchain_cell_t} {z : Nat}
    (h : getCell cs' z = getCell cs z) : cnxt cs' z = cnxt cs z := by
  simp [cnxt, h]

theorem cprv_congr {cs cs' : List dchain_cell_t} {z : Nat}
    (h : getCell cs' z = getCell cs z) : cprv cs' z = cprv cs z := by
  simp [cprv, h]

theorem CellsRep.bounds {cs n as fs} (h : CellsRep cs n as fs) :
    ∀ x ∈ as ++ fs, 2 ≤ x ∧ x < n + 2 := by
  intro x hx
  have := h.perm.mem_iff.1 hx
  have := List.mem_range'_1.1 this
  omega

theorem CellsRep.nodup {cs n as fs} (h : CellsRep cs n as fs) :
    (as ++ fs).Nodup :=
  h.perm.nodup_iff.2 (List.nodup_range' _ _)

theorem CellsRep.total {cs n as fs} (h : CellsRep cs n as fs) :
    ∀ i, i < n → i + 2 ∈ as ∨ i + 2 ∈ fs := by
  intro i hi
  have : i + 2 ∈ as ++ fs := h.perm.mem_iff.2 (List.mem_range'_1.2 (by omega))
  simpa using this

/-- Effect of `appendEnd` on the representation: appending a fresh cell
`x` to the end of the occupied list `bs`, the free list `gs` untouched. -/
theorem appendEnd_rep {cs : List dchain_cell_t} {bs gs : List Nat} {x n : Nat}
    (len : cs.length = n + 2)
    (hbs : ∀ z ∈ bs, 2 ≤ z ∧ z < n + 2)
    (hgs : ∀ z ∈ gs, 2 ≤ z ∧ z < n + 2)
    (hnd : bs.Nodup)
    (hdisj : ∀ z ∈ gs, z ∉ bs)
    (hx2 : 2 ≤ x) (hxlt : x < n + 2) (hxbs : x ∉ bs) (hxgs : x ∉ gs)
    (hanext : isPath (cnxt cs) 0 bs 0)
    (haprev : isPath (cprv cs) 0 bs.reverse 0)
    (hfnext : isPath (cnxt cs) 1 gs 1)
    (hfeq : ∀ z ∈ gs, cprv cs z = cnxt cs z)
    (hfhead : cprv cs 1 = cnxt cs 1) :
    isPath (cnxt (appendEnd cs x)) 0 (bs ++ [x]) 0 ∧
    isPath (cprv (appendEnd cs x)) 0 (bs ++ [x]).reverse 0 ∧
    isPath (cnxt (appendEnd cs x)) 1 gs 1 ∧
    (∀ z ∈ gs, cprv (appendEnd cs x) z = cnxt (appendEnd cs x) z) ∧
    cprv (appendEnd cs x) 1 = cnxt (appendEnd cs x) 1 := by
  have hx0 : x ≠ 0 := by omega
  have hx1 : x ≠ 1 := by omega
  have hxlen : x < cs.length := by omega
  have h0len : 0 < cs.length := by omega
  rcases bs.eq_nil_or_concat with rfl | ⟨l, e, rfl⟩
  case inl =>
    -- the occupied list was empty: ahp = 0
    have hahp : cprv cs 0 = 0 := haprev
    have hahp' : (getCell cs 0).prev = 0 := hahp
    have hxa : x ≠ cprv cs 0 := by rw [hahp]; exact hx0
    have hcellx : getCell (appendEnd cs x) x = ⟨cprv cs 0, 0⟩ :=
      appendEnd_getCell_x cs x hxlen hx0 hxa
    have hun : ∀ z, z ≠ x → z ≠ 0 → getCell (appendEnd cs x) z = getCell cs z := by
      intro z hzx hz0
      exact appendEnd_getCell_ne cs x z hzx hz0 (by rw [hahp]; exact hz0)
    refine ⟨?_, ?_, ?_, ?_, ?_⟩
    · refine ⟨?_, ?_⟩
      · have := appendEnd_cnxt_ahp cs x (by rw [hahp]; omega) h0len hxa
        rwa [hahp] at this
      · show cnxt (appendEnd cs x) x = 0
        simp [cnxt, hcellx]
    · refine ⟨appendEnd_cprv_zero cs x h0len, ?_⟩
      show cprv (appendEnd cs x) x = 0
      simp [cprv, hcellx, hahp']
    · refine isPath_of_agree hfnext ?_ ?_
      · exact cnxt_congr (hun 1 hx1.symm (by omega))
      · intro z hz
        have hzb := hgs z hz
        exact cnxt_congr (hun z (fun h => hxgs (h ▸ hz)) (by omega))
    · intro z hz
      have hzb := hgs z hz
      have h := hun z (fun h => hxgs (h ▸ hz)) (by omega)
      rw [cnxt_congr h, cprv_congr h]; exact hfeq z hz
    · have h := hun 1 hx1.symm (by omega)
      rw [cnxt_congr h, cprv_congr h]; exact hfhead
  case inr =>
    simp only [List.concat_eq_append] at hbs hnd hdisj hxbs hanext haprev ⊢
    have hrev : (l ++ [e]).reverse = e :: l.reverse := by simp
    rw [hrev] at haprev
    obtain ⟨hahp, hprevtail⟩ := haprev
    have he_mem : e ∈ l ++ [e] := by simp
    have he2 : 2 ≤ e := (hbs e he_mem).1
    have helt : e < n + 2 := (hbs e he_mem).2
    have hel : e ∉ l := by
      rw [List.nodup_append] at hnd
      intro hmem
      exact hnd.2.2 hmem (by simp)
    have hxe : x ≠ e := fun h => hxbs (h ▸ he_mem)
    have hxa : x ≠ cprv cs 0 := by rw [hahp]; exact hxe
    have hahp' : (getCell cs 0).prev = e := hahp
    have hcellx : getCell (appendEnd cs x) x = ⟨cprv cs 0, 0⟩ :=
      appendEnd_getCell_x cs x hxlen hx0 hxa
    have hcnxte : cnxt (appendEnd cs x) e = x := by
      have := appendEnd_cnxt_ahp cs x (by rw [hahp]; omega) h0len hxa
      rwa [hahp] at this
    have hcprve : cprv (appendEnd cs x) e = cprv cs e := by
      have := appendEnd_cprv_ahp_ne cs x (by rw [hahp]; omega) hxa
      rwa [hahp] at this
    have hcnxt0 : cnxt (appendEnd cs x) 0 = cnxt cs 0 :=
      appendEnd_cnxt_zero_ne cs x (by rw [hahp]; omega) hx0
    have hun : ∀ z, z ≠ x → z ≠ 0 → z ≠ e →
        getCell (appendEnd cs x) z = getCell cs z := by
      intro z hzx hz0 hze
      exact appendEnd_getCell_ne cs x z hzx hz0 (by rw [hahp]; exact hze)
    refine ⟨?_, ?_, ?_, ?_, ?_⟩
    · have : isPath (cnxt (appendEnd cs x)) 0 ((l ++ [e]) ++ x :: []) 0 := by
        rw [isPath_append_mid]
        constructor
        · refine isPath_redirect_concat hanext hcnxt0 ?_ hcnxte
          intro z hz
          have hz2 := (hbs z (by simp [hz])).1
          exact cnxt_congr (hun z (fun h => hxbs (h ▸ (by simp [hz] : z ∈ l ++ [e])))
            (by omega) (fun h => hel (h ▸ hz)))
        · show cnxt (appendEnd cs x) x = 0
          simp [cnxt, hcellx]
      simpa using this
    · have hgoal : (l ++ [e] ++ [x]).reverse = x :: e :: l.reverse := by simp
      rw [hgoal]
      refine ⟨appendEnd_cprv_zero cs x h0len, ?_, ?_⟩
      · show cprv (appendEnd cs x) x = e
        simp [cprv, hcellx, hahp']
      · refine isPath_of_agree hprevtail hcprve ?_
        intro z hz
        rw [List.mem_reverse] at hz
        have hz2 := (hbs z (by simp [hz])).1
        exact cprv_congr (hun z (fun h => hxbs (h ▸ (by simp [hz] : z ∈ l ++ [e])))
          (by omega) (fun h => hel (h ▸ hz)))
    · refine isPath_of_agree hfnext ?_ ?_
      · exact cnxt_congr (hun 1 hx1.symm (by omega) (by omega))
      · intro z hz
        have hzb := hgs z hz
        exact cnxt_congr (hun z (fun h => hxgs (h ▸ hz)) (by omega)
          (fun h => hdisj z hz (h ▸ he_mem)))
    · intro z hz
      have hzb := hgs z hz
      have h := hun z (fun h => hxgs (h ▸ hz)) (by omega)
        (fun h => hdisj z hz (h ▸ he_mem))
      rw [cnxt_congr h, cprv_congr h]; exact hfeq z hz
    · have h := hun 1 hx1.symm (by omega) (by omega)
      rw [cnxt_congr h, cprv_congr h]; exact hfhead

theorem spliceOut_cnxt_at (cs : List dchain_cell_t) (p n z : Nat) (hz : z = p)
    (hp : p < cs.length) (hn : n < cs.length) :
    cnxt (spliceOut cs p n) z = n := by
  subst hz; exact spliceOut_cnxt_p cs z n hp hn

theorem spliceOut_cprv_at (cs : List dchain_cell_t) (p n z : Nat) (hz : z = n)
    (hn : n < cs.length) :
    cprv (spliceOut cs p n) z = p := by
  subst hz; exact spliceOut_cprv_n cs p z hn

/-- Unlinking an occupied cell `L` rebuilds the occupied next-path without it. -/
theorem spliceOut_rep_next {cs : List dchain_cell_t} {as1 as2 : List Nat} {L n : Nat}
    (len : cs.length = n + 2)
    (hbs : ∀ z ∈ as1 ++ L :: as2, 2 ≤ z ∧ z < n + 2)
    (hnd : (as1 ++ L :: as2).Nodup)
    (hanext : isPath (cnxt cs) 0 (as1 ++ L :: as2) 0)
    (haprev : isPath (cprv cs) 0 (as1 ++ L :: as2).reverse 0) :
    isPath (cnxt (spliceOut cs (cprv cs L) (cnxt cs L))) 0 (as1 ++ as2) 0 := by
  rw [isPath_append_mid] at hanext
  obtain ⟨h1, h2⟩ := hanext
  have hrev : (as1 ++ L :: as2).reverse = as2.reverse ++ L :: as1.reverse := by simp
  rw [hrev, isPath_append_mid] at haprev
  obtain ⟨hp1, hp2⟩ := haprev
  have hnd' := hnd
  rw [List.nodup_append, List.nodup_cons] at hnd'
  obtain ⟨hnd1, ⟨hL2, hnd2⟩, hdisj12⟩ := hnd'
  -- bound for the next pointer of L
  have hqlen : cnxt cs L < cs.length := by
    cases as2 with
    | nil => have hq : cnxt cs L = 0 := h2; omega
    | cons y ys =>
      have hq : cnxt cs L = y := h2.1
      have := (hbs y (by simp)).2
      omega
  rcases as1.eq_nil_or_concat with rfl | ⟨l1, e1, rfl⟩
  next =>
    have hp : cprv cs L = 0 := hp2
    have hplen : cprv cs L < cs.length := by omega
    have hkey : cnxt (spliceOut cs (cprv cs L) (cnxt cs L)) 0 = cnxt cs L :=
      spliceOut_cnxt_at cs _ _ 0 hp.symm hplen hqlen
    cases as2 with
    | nil =>
      have hq : cnxt cs L = 0 := h2
      show cnxt _ 0 = 0
      rw [hkey, hq]
    | cons y ys =>
      obtain ⟨hq, htail⟩ := h2
      refine ⟨by rw [hkey, hq], ?_⟩
      refine isPath_of_agree htail ?_ ?_
      · have hy2 : 2 ≤ y := (hbs y (by simp)).1
        exact spliceOut_cnxt_ne cs _ _ y (by rw [hp]; omega)
      · intro z hz
        have hz2 := (hbs z (by simp [hz])).1
        exact spliceOut_cnxt_ne cs _ _ z (by rw [hp]; omega)
  next =>
    simp only [List.concat_eq_append] at hbs hnd h1 hp2 hnd1 hdisj12 ⊢
    have hrev1 : (l1 ++ [e1]).reverse = e1 :: l1.reverse := by simp
    rw [hrev1] at hp2
    obtain ⟨hpe, _⟩ := hp2
    have he12 : 2 ≤ e1 := (hbs e1 (by simp)).1
    have he1lt : e1 < n + 2 := (hbs e1 (by simp)).2
    have hplen : cprv cs L < cs.length := by rw [hpe]; omega
    have he1l1 : e1 ∉ l1 := by
      rw [List.nodup_append] at hnd1
      exact fun hmem => hnd1.2.2 hmem (by simp)
    have hkey : cnxt (spliceOut cs (cprv cs L) (cnxt cs L)) e1 = cnxt cs L :=
      spliceOut_cnxt_at cs _ _ e1 hpe.symm hplen hqlen
    have hredir : ∀ b, cnxt cs L = b →
        isPath (cnxt (spliceOut cs (cprv cs L) (cnxt cs L))) 0 (l1 ++ [e1]) b := by
      intro b hb
      refine isPath_redirect_concat h1 ?_ ?_ (hkey.trans hb)
      · exact spliceOut_cnxt_ne cs _ _ 0 (by rw [hpe]; omega)
      · intro z hz
        refine spliceOut_cnxt_ne cs _ _ z ?_
        rw [hpe]
        exact fun h => he1l1 (h ▸ hz)
    cases as2 with
    | nil =>
      have hq : cnxt cs L = 0 := h2
      simpa using hredir 0 hq
    | cons y ys =>
      obtain ⟨hq, htail⟩ := h2
      have hgoal : isPath (cnxt (spliceOut cs (cprv cs L) (cnxt cs L))) 0
          ((l1 ++ [e1]) ++ y :: ys) 0 := by
        rw [isPath_append_mid]
        refine ⟨hredir y hq, ?_⟩
        refine isPath_of_agree htail ?_ ?_
        · refine spliceOut_cnxt_ne cs _ _ y ?_
          rw [hpe]
          intro h
          exact hdisj12 (show e1 ∈ l1 ++ [e1] by simp)
            (show e1 ∈ L :: y :: ys by rw [← h]; simp)
        · intro z hz
          refine spliceOut_cnxt_ne cs _ _ z ?_
          rw [hpe]
          intro h
          exact hdisj12 (show e1 ∈ l1 ++ [e1] by simp)
            (show e1 ∈ L :: y :: ys by rw [← h]; simp [hz])
      simpa using hgoal

/-- Unlinking an occupied cell `L` rebuilds the occupied prev-path without it. -/
theorem spliceOut_rep_prev {cs : List dchain_cell_t} {as1 as2 : List Nat} {L n : Nat}
    (len : cs.length = n + 2)
    (hbs : ∀ z ∈ as1 ++ L :: as2, 2 ≤ z ∧ z < n + 2)
    (hnd : (as1 ++ L :: as2).Nodup)
    (hanext : isPath (cnxt cs) 0 (as1 ++ L :: as2) 0)
    (haprev : isPath (cprv cs) 0 (as1 ++ L :: as2).reverse 0) :
    isPath (cprv (spliceOut cs (cprv cs L) (cnxt cs L))) 0 (as1 ++ as2).reverse 0 := by
  rw [isPath_append_mid] at hanext
  obtain ⟨h1, h2⟩ := hanext
  have hrev : (as1 ++ L :: as2).reverse = as2.reverse ++ L :: as1.reverse := by simp
  rw [hrev, isPath_append_mid] at haprev
  obtain ⟨hp1, hp2⟩ := haprev
  have hnd' := hnd
  rw [List.nodup_append, List.nodup_cons] at hnd'
  obtain ⟨hnd1, ⟨hL2, hnd2⟩, hdisj12⟩ := hnd'
  have hqlen : cnxt cs L < cs.length := by
    cases as2 with
    | nil => have hq : cnxt cs L = 0 := h2; omega
    | cons y ys =>
      have hq : cnxt cs L = y := h2.1
      have := (hbs y (by simp)).2
      omega
  -- the head of the first-part path after splicing, ending at the new endpoint b
  have hfront : ∀ b, cprv cs L = b →
      isPath (cprv (spliceOut cs (cprv cs L) (cnxt cs L))) 0 as2.reverse b := by
    intro b hb
    have hend : cprv (spliceOut cs (cprv cs L) (cnxt cs L)) (cnxt cs L) = b :=
      (spliceOut_cprv_n cs _ _ hqlen).trans hb
    cases as2 with
    | nil =>
      have hq : cnxt cs L = 0 := h2
      show cprv _ 0 = b
      calc cprv (spliceOut cs (cprv cs L) (cnxt cs L)) 0
          = cprv (spliceOut cs (cprv cs L) (cnxt cs L)) (cnxt cs L) := by rw [hq]
        _ = b := hend
    | cons y ys =>
      obtain ⟨hq, _⟩ := h2
      have hyrev : (y :: ys).reverse = ys.reverse ++ [y] := by simp
      rw [hyrev] at hp1 ⊢
      have hynotys : y ∉ ys := (List.nodup_cons.1 hnd2).1
      refine isPath_redirect_concat hp1 ?_ ?_ ?_
      · refine spliceOut_cprv_ne cs _ _ 0 ?_
        have hy2 : 2 ≤ y := (hbs y (by simp)).1
        rw [hq]; omega
      · intro z hz
        rw [List.mem_reverse] at hz
        refine spliceOut_cprv_ne cs _ _ z ?_
        rw [hq]
        exact fun h => hynotys (h ▸ hz)
      · calc cprv (spliceOut cs (cprv cs L) (cnxt cs L)) y
            = cprv (spliceOut cs (cprv cs L) (cnxt cs L)) (cnxt cs L) := by rw [hq]
          _ = b := hend
  rcases as1.eq_nil_or_concat with rfl | ⟨l1, e1, rfl⟩
  next =>
    have hp : cprv cs L = 0 := hp2
    simpa using hfront 0 hp
  next =>
    simp only [List.concat_eq_append] at hbs hnd h1 hp2 hnd1 hdisj12 ⊢
    have hrev1 : (l1 ++ [e1]).reverse = e1 :: l1.reverse := by simp
    rw [hrev1] at hp2
    obtain ⟨hpe, htl⟩ := hp2
    have he12 : 2 ≤ e1 := (hbs e1 (by simp)).1
    have hqne : ∀ z, 2 ≤ z → z ∉ as2 → z ≠ cnxt cs L := by
      intro z hz2 hzn
      cases as2 with
      | nil => have hq : cnxt cs L = 0 := h2; rw [hq]; omega
      | cons y ys =>
        have hq : cnxt cs L = y := h2.1
        rw [hq]
        exact fun h => hzn (h ▸ (by simp : y ∈ y :: ys))
    have hgoal : isPath (cprv (spliceOut cs (cprv cs L) (cnxt cs L))) 0
        (as2.reverse ++ e1 :: l1.reverse) 0 := by
      rw [isPath_append_mid]
      refine ⟨hfront e1 hpe, ?_⟩
      refine isPath_of_agree htl ?_ ?_
      · refine spliceOut_cprv_ne cs _ _ e1 ?_
        refine hqne e1 he12 ?_
        exact fun hmem => hdisj12 (show e1 ∈ l1 ++ [e1] by simp) (by simp [hmem])
      · intro z hz
        rw [List.mem_reverse] at hz
        have hz2 := (hbs z (by simp [hz])).1
        refine spliceOut_cprv_ne cs _ _ z ?_
        refine hqne z hz2 ?_
        exact fun hmem => hdisj12 (show z ∈ l1 ++ [e1] by simp [hz]) (by simp [hmem])
    have hre : ((l1 ++ [e1]) ++ as2).reverse = as2.reverse ++ e1 :: l1.reverse := by
      simp
    rw [hre]
    exact hgoal

/-- Unlinking an occupied cell leaves every free cell and the free sentinel
untouched. -/
theorem spliceOut_rep_free {cs : List dchain_cell_t} {as1 as2 gs : List Nat} {L n : Nat}
    (hbs : ∀ z ∈ as1 ++ L :: as2, 2 ≤ z ∧ z < n + 2)
    (hgs : ∀ z ∈ gs, 2 ≤ z ∧ z < n + 2)
    (hdisj : ∀ z ∈ gs, z ∉ as1 ++ L :: as2)
    (hanext : isPath (cnxt cs) 0 (as1 ++ L :: as2) 0)
    (haprev : isPath (cprv cs) 0 (as1 ++ L :: as2).reverse 0) :
    (∀ z, z ∈ gs ∨ z = 1 →
      getCell (spliceOut cs (cprv cs L) (cnxt cs L)) z = getCell cs z) := by
  rw [isPath_append_mid] at hanext
  obtain ⟨h1, h2⟩ := hanext
  have hrev : (as1 ++ L :: as2).reverse = as2.reverse ++ L :: as1.reverse := by simp
  rw [hrev, isPath_append_mid] at haprev
  obtain ⟨hp1, hp2⟩ := haprev
  have hpmem : cprv cs L = 0 ∨ cprv cs L ∈ as1 := by
    rcases as1.eq_nil_or_concat with rfl | ⟨l1, e1, rfl⟩
    · exact Or.inl hp2
    · simp only [List.concat_eq_append] at hp2 ⊢
      have hrev1 : (l1 ++ [e1]).reverse = e1 :: l1.reverse := by simp
      rw [hrev1] at hp2
      exact Or.inr (hp2.1 ▸ (by simp : e1 ∈ l1 ++ [e1]))
  have hqmem : cnxt cs L = 0 ∨ cnxt cs L ∈ as2 := by
    cases as2 with
    | nil => exact Or.inl h2
    | cons y ys => exact Or.inr (h2.1 ▸ (by simp : y ∈ y :: ys))
  intro z hz
  have hz1 : 2 ≤ z ∨ z = 1 := by
    rcases hz with hz | rfl
    · exact Or.inl (hgs z hz).1
    · exact Or.inr rfl
  have hznas : z ∉ as1 ++ L :: as2 := by
    rcases hz with hz | rfl
    · exact hdisj z hz
    · intro hmem
      have := (hbs 1 hmem).1
      omega
  refine spliceOut_getCell_ne cs _ _ z ?_ ?_
  · rcases hpmem with hp | hp
    · rw [hp]; rcases hz1 with h | rfl
      · omega
      · omega
    · exact fun h => hznas (h ▸ (by simp [hp] : cprv cs L ∈ as1 ++ L :: as2))
  · rcases hqmem with hq | hq
    · rw [hq]; rcases hz1 with h | rfl
      · omega
      · omega
    · exact fun h => hznas (h ▸ (by simp [hq] : cnxt cs L ∈ as1 ++ L :: as2))

/-- Effect of `pushFree`: the freed cell `x` becomes the new head of the
free list; the occupied lists are untouched. -/
theorem pushFree_rep {cs : List dchain_cell_t} {bs gs : List Nat} {x n : Nat}
    (len : cs.length = n + 2)
    (hbs : ∀ z ∈ bs, 2 ≤ z ∧ z < n + 2)
    (hgs : ∀ z ∈ gs, 2 ≤ z ∧ z < n + 2)
    (hx2 : 2 ≤ x) (hxlt : x < n + 2) (hxbs : x ∉ bs) (hxgs : x ∉ gs)
    (hanext : isPath (cnxt cs) 0 bs 0)
    (haprev : isPath (cprv cs) 0 bs.reverse 0)
    (hfnext : isPath (cnxt cs) 1 gs 1)
    (hfeq : ∀ z ∈ gs, cprv cs z = cnxt cs z)
    (hfhead : cprv cs 1 = cnxt cs 1) :
    isPath (cnxt (pushFree cs x)) 0 bs 0 ∧
    isPath (cprv (pushFree cs x)) 0 bs.reverse 0 ∧
    isPath (cnxt (pushFree cs x)) 1 (x :: gs) 1 ∧
    (∀ z ∈ x :: gs, cprv (pushFree cs x) z = cnxt (pushFree cs x) z) ∧
    cprv (pushFree cs x) 1 = cnxt (pushFree cs x) 1 := by
  have hx1 : x ≠ 1 := by omega
  have hxlen : x < cs.length := by omega
  have h1len : 1 < cs.length := by omega
  have hone : getCell (pushFree cs x) 1 = ⟨x, x⟩ :=
    pushFree_getCell_one cs x h1len hx1
  have hcx : getCell (pushFree cs x) x = ⟨cnxt cs 1, cnxt cs 1⟩ :=
    pushFree_getCell_x cs x hxlen hx1
  have hun : ∀ z, z ≠ 1 → z ≠ x → getCell (pushFree cs x) z = getCell cs z :=
    fun z hz1 hzx => pushFree_getCell_ne cs x z hz1 hzx
  refine ⟨?_, ?_, ?_, ?_, ?_⟩
  · refine isPath_of_agree hanext (cnxt_congr (hun 0 (by omega) (by omega))) ?_
    intro z hz
    have hz2 := (hbs z hz).1
    exact cnxt_congr (hun z (by omega) (fun h => hxbs (h ▸ hz)))
  · refine isPath_of_agree haprev (cprv_congr (hun 0 (by omega) (by omega))) ?_
    intro z hz
    rw [List.mem_reverse] at hz
    have hz2 := (hbs z hz).1
    exact cprv_congr (hun z (by omega) (fun h => hxbs (h ▸ hz)))
  · refine ⟨by simp [cnxt, hone], ?_⟩
    refine isPath_of_agree hfnext (by simp [cnxt, hcx]) ?_
    intro z hz
    have hz2 := (hgs z hz).1
    exact cnxt_congr (hun z (by omega) (fun h => hxgs (h ▸ hz)))
  · intro z hz
    rcases List.mem_cons.1 hz with rfl | hz
    · simp [cnxt, cprv, hcx]
    · have hz2 := (hgs z hz).1
      have h := hun z (by omega) (fun h => hxgs (h ▸ hz))
      rw [cnxt_congr h, cprv_congr h]
      exact hfeq z hz
  · simp [cnxt, cprv, hone]

/-- Effect of `popFree` with the successor of the old free head: the head
cell leaves the free list; the occupied lists are untouched. -/
theorem popFree_rep {cs : List dchain_cell_t} {bs fs' : List Nat} {f0 n : Nat}
    (len : cs.length = n + 2)
    (hbs : ∀ z ∈ bs, 2 ≤ z ∧ z < n + 2)
    (hfs : ∀ z ∈ f0 :: fs', 2 ≤ z ∧ z < n + 2)
    (hfnext : isPath (cnxt cs) 1 (f0 :: fs') 1)
    (hanext : isPath (cnxt cs) 0 bs 0)
    (haprev : isPath (cprv cs) 0 bs.reverse 0)
    (hfeq : ∀ z ∈ f0 :: fs', cprv cs z = cnxt cs z)
    (hfhead : cprv cs 1 = cnxt cs 1) :
    isPath (cnxt (popFree cs (cnxt cs f0))) 0 bs 0 ∧
    isPath (cprv (popFree cs (cnxt cs f0))) 0 bs.reverse 0 ∧
    isPath (cnxt (popFree cs (cnxt cs f0))) 1 fs' 1 ∧
    (∀ z ∈ fs', cprv (popFree cs (cnxt cs f0)) z = cnxt (popFree cs (cnxt cs f0)) z) ∧
    cprv (popFree cs (cnxt cs f0)) 1 = cnxt (popFree cs (cnxt cs f0)) 1 := by
  have h1len : 1 < cs.length := by omega
  have hone : getCell (popFree cs (cnxt cs f0)) 1 = ⟨cnxt cs f0, cnxt cs f0⟩ :=
    popFree_getCell_one cs _ h1len
  have hun : ∀ z, z ≠ 1 → getCell (popFree cs (cnxt cs f0)) z = getCell cs z :=
    fun z hz1 => popFree_getCell_ne cs _ z hz1
  obtain ⟨hf0, htail⟩ := hfnext
  have hone_next : (getCell (popFree cs (cnxt cs f0)) 1).next =
      (⟨cnxt cs f0, cnxt cs f0⟩ : dchain_cell_t).next :=
    congrArg dchain_cell_t.next hone
  have hone_prev : (getCell (popFree cs (cnxt cs f0)) 1).prev =
      (⟨cnxt cs f0, cnxt cs f0⟩ : dchain_cell_t).prev :=
    congrArg dchain_cell_t.prev hone
  have hstart : cnxt (popFree cs (cnxt cs f0)) 1 = cnxt cs f0 := hone_next
  have hhead : cprv (popFree cs (cnxt cs f0)) 1 = cnxt (popFree cs (cnxt cs f0)) 1 := by
    show (getCell (popFree cs (cnxt cs f0)) 1).prev =
      (getCell (popFree cs (cnxt cs f0)) 1).next
    rw [hone_prev, hone_next]
  refine ⟨?_, ?_, ?_, ?_, ?_⟩
  · refine isPath_of_agree hanext (cnxt_congr (hun 0 (by omega))) ?_
    intro z hz
    have hz2 := (hbs z hz).1
    exact cnxt_congr (hun z (by omega))
  · refine isPath_of_agree haprev (cprv_congr (hun 0 (by omega))) ?_
    intro z hz
    rw [List.mem_reverse] at hz
    have hz2 := (hbs z hz).1
    exact cprv_congr (hun z (by omega))
  · refine isPath_of_agree htail hstart ?_
    intro z hz
    have hz2 := (hfs z (by simp [hz])).1
    exact cnxt_congr (hun z (by omega))
  · intro z hz
    have hz2 := (hfs z (by simp [hz])).1
    have h := hun z (by omega)
    rw [cnxt_congr h, cprv_congr h]
    exact hfeq z (by simp [hz])
  · exact hhead

/-! ### Operation-level characterisation under the representation invariant -/

theorem CellsRep.occ_guard {cs : List dchain_cell_t} {n L : Nat} {as1 as2 fs : List Nat}
    (h : CellsRep cs n (as1 ++ L :: as2) fs) :
    (as1 = [] ∧ as2 = [] ∧ cnxt cs L = 0 ∧ cprv cs L = 0) ∨ cnxt cs L ≠ cprv cs L := by
  have hanext := h.allocNext
  have haprev := h.allocPrev
  rw [isPath_append_mid] at hanext
  obtain ⟨h1, h2⟩ := hanext
  have hrev : (as1 ++ L :: as2).reverse = as2.reverse ++ L :: as1.reverse := by simp
  rw [hrev, isPath_append_mid] at haprev
  obtain ⟨hp1, hp2⟩ := haprev
  have hnd := h.nodup
  rw [List.nodup_append] at hnd
  obtain ⟨hndas, _, _⟩ := hnd
  rw [List.nodup_append, List.nodup_cons] at hndas
  obtain ⟨hnd1, ⟨hL2, hnd2⟩, hdisj12⟩ := hndas
  rcases as1.eq_nil_or_concat with rfl | ⟨l1, e1, rfl⟩
  · have hp : cprv cs L = 0 := hp2
    cases as2 with
    | nil => exact Or.inl ⟨rfl, rfl, h2, hp⟩
    | cons y ys =>
      have hq : cnxt cs L = y := h2.1
      have hy2 : 2 ≤ y := (h.bounds y (by simp)).1
      exact Or.inr (by rw [hq, hp]; omega)
  · simp only [List.concat_eq_append] at hp2 hdisj12
    have hrev1 : (l1 ++ [e1]).reverse = e1 :: l1.reverse := by simp
    rw [hrev1] at hp2
    have hpe : cprv cs L = e1 := hp2.1
    have he2 : 2 ≤ e1 := (h.bounds e1 (by simp)).1
    cases as2 with
    | nil =>
      have hq : cnxt cs L = 0 := h2
      exact Or.inr (by rw [hq, hpe]; omega)
    | cons y ys =>
      have hq : cnxt cs L = y := h2.1
      refine Or.inr ?_
      rw [hq, hpe]
      intro hcon
      exact hdisj12 (show e1 ∈ l1 ++ [e1] by simp) (by rw [← hcon]; simp)

theorem CellsRep.free_cell_guard {cs : List dchain_cell_t} {n L : Nat} {as fs : List Nat}
    (h : CellsRep cs n as fs) (hL : L ∈ fs) :
    cprv cs L = cnxt cs L ∧ cnxt cs L ≠ 0 := by
  refine ⟨h.freeEq L hL, ?_⟩
  rcases isPath_mem_next h.freeNext L hL with h1 | h1
  · omega
  · have := (h.bounds (cnxt cs L) (by simp [h1])).1
    omega

/-- A slot whose cell sits on the free list cannot be freed again: the call
fails and the state is returned unchanged. -/
theorem free_index_of_free {c : DoubleChain} {as fs : List Nat} {i : Nat}
    (h : DChainRep c as fs) (hi : i + 2 ∈ fs) :
    c.free_index i = (false, c) := by
  obtain ⟨heq, hne⟩ := h.free_cell_guard hi
  simp only [DoubleChain.free_index, INDEX_SHIFT, ALLOC_LIST_HEAD]
  rw [if_pos]
  constructor
  · exact heq.symm
  · show cprv c.cells (i + 2) ≠ 0
    rw [heq]; exact hne

/-- Touching a slot whose cell sits on the free list fails without change. -/
theorem rejuvenate_index_of_free {c : DoubleChain} {as fs : List Nat} {i : Nat}
    (h : DChainRep c as fs) (hi : i + 2 ∈ fs) (t : Int) :
    c.rejuvenate_index i t = (false, c) := by
  obtain ⟨heq, hne⟩ := h.free_cell_guard hi
  simp only [DoubleChain.rejuvenate_index, INDEX_SHIFT, ALLOC_LIST_HEAD]
  rw [if_pos (show (getCell c.cells (i + 2)).next = (getCell c.cells (i + 2)).prev
      from heq.symm),
    if_pos (show (getCell c.cells (i + 2)).next ≠ 0 from hne)]

/-- All representation components after unlinking occupied cell `L`. -/
theorem spliceOut_rep_all {cs : List dchain_cell_t} {n L : Nat} {as1 as2 fs : List Nat}
    (h : CellsRep cs n (as1 ++ L :: as2) fs) :
    isPath (cnxt (spliceOut cs (cprv cs L) (cnxt cs L))) 0 (as1 ++ as2) 0 ∧
    isPath (cprv (spliceOut cs (cprv cs L) (cnxt cs L))) 0 (as1 ++ as2).reverse 0 ∧
    isPath (cnxt (spliceOut cs (cprv cs L) (cnxt cs L))) 1 fs 1 ∧
    (∀ z ∈ fs, cprv (spliceOut cs (cprv cs L) (cnxt cs L)) z =
      cnxt (spliceOut cs (cprv cs L) (cnxt cs L)) z) ∧
    cprv (spliceOut cs (cprv cs L) (cnxt cs L)) 1 =
      cnxt (spliceOut cs (cprv cs L) (cnxt cs L)) 1 := by
  have hbs : ∀ z ∈ as1 ++ L :: as2, 2 ≤ z ∧ z < n + 2 :=
    fun z hz => h.bounds z (List.mem_append_left fs hz)
  have hgs : ∀ z ∈ fs, 2 ≤ z ∧ z < n + 2 :=
    fun z hz => h.bounds z (List.mem_append_right _ hz)
  have hndas : (as1 ++ L :: as2).Nodup := (List.nodup_append.1 h.nodup).1
  have hdisj : ∀ z ∈ fs, z ∉ as1 ++ L :: as2 :=
    fun z hz hmem => (List.nodup_append.1 h.nodup).2.2 hmem hz
  have hfun := spliceOut_rep_free hbs hgs hdisj h.allocNext h.allocPrev
  refine ⟨spliceOut_rep_next h.len hbs hndas h.allocNext h.allocPrev,
    spliceOut_rep_prev h.len hbs hndas h.allocNext h.allocPrev,
    isPath_of_agree h.freeNext (cnxt_congr (hfun 1 (Or.inr rfl)))
      (fun z hz => cnxt_congr (hfun z (Or.inl hz))), ?_, ?_⟩
  · intro z hz
    have hg := hfun z (Or.inl hz)
    rw [cnxt_congr hg, cprv_congr hg]
    exact h.freeEq z hz
  · have hg := hfun 1 (Or.inr rfl)
    rw [cnxt_congr hg, cprv_congr hg]
    exact h.freeHeadEq

/-- Freeing an occupied slot succeeds and moves its cell to the head of
the free list. -/
theorem free_index_occ {c : DoubleChain} {as1 as2 fs : List Nat} {i : Nat}
    (h : DChainRep c (as1 ++ (i + 2) :: as2) fs) :
    ∃ c', c.free_index i = (true, c') ∧
      DChainRep c' (as1 ++ as2) ((i + 2) :: fs) ∧
      c'.timestamps = c.timestamps := by
  have hL := h.bounds (i + 2) (List.mem_append_left fs (by simp))
  have hndas : (as1 ++ (i + 2) :: as2).Nodup := (List.nodup_append.1 h.nodup).1
  have hLas : (i + 2) ∉ as1 ++ as2 := by
    rw [List.nodup_append, List.nodup_cons] at hndas
    intro hmem
    rcases List.mem_append.1 hmem with hm | hm
    · exact hndas.2.2 hm (by simp)
    · exact hndas.2.1.1 hm
  have hLfs : (i + 2) ∉ fs :=
    fun hm => (List.nodup_append.1 h.nodup).2.2
      (show (i + 2) ∈ as1 ++ (i + 2) :: as2 by simp) hm
  obtain ⟨hsp1, hsp2, hsp3, hsp4, hsp5⟩ := spliceOut_rep_all h
  have hbs2 : ∀ z ∈ as1 ++ as2, 2 ≤ z ∧ z < c.timestamps.length + 2 := by
    intro z hz
    refine h.bounds z (List.mem_append_left fs ?_)
    rcases List.mem_append.1 hz with hm | hm
    · exact List.mem_append_left _ hm
    · exact List.mem_append_right _ (by simp [hm])
  have hgs : ∀ z ∈ fs, 2 ≤ z ∧ z < c.timestamps.length + 2 :=
    fun z hz => h.bounds z (List.mem_append_right _ hz)
  have hlen2 : (spliceOut c.cells (cprv c.cells (i + 2)) (cnxt c.cells (i + 2))).length =
      c.timestamps.length + 2 := by rw [length_spliceOut]; exact h.len
  obtain ⟨hp1, hp2, hp3, hp4, hp5⟩ :=
    pushFree_rep hlen2 hbs2 hgs hL.1 hL.2 hLas hLfs hsp1 hsp2 hsp3 hsp4 hsp5
  refine ⟨⟨pushFree (spliceOut c.cells (cprv c.cells (i + 2)) (cnxt c.cells (i + 2)))
      (i + 2), c.timestamps⟩, ?_, ?_, rfl⟩
  · simp only [DoubleChain.free_index, INDEX_SHIFT, ALLOC_LIST_HEAD]
    rw [if_neg]
    · rfl
    · rcases h.occ_guard with ⟨_, _, hq0, hp0⟩ | hneq
      · intro hcon
        exact hcon.2 hp0
      · intro hcon
        exact hneq hcon.1
  · refine ⟨?_, hp1, hp2, hp3, hp4, hp5, ?_⟩
    · show (pushFree _ _).length = c.timestamps.length + 2
      rw [length_pushFree]
      exact hlen2
    · show ((as1 ++ as2) ++ (i + 2) :: fs).Perm (List.range' 2 c.timestamps.length)
      refine List.Perm.trans ?_ h.perm
      rw [List.append_assoc, List.append_assoc]
      refine List.Perm.append_left as1 ?_
      exact List.perm_middle

/-- Touching the sole occupied slot returns true without any change
(in particular the timestamp is not refreshed). -/
theorem rejuvenate_index_sole {c : DoubleChain} {fs : List Nat} {i : Nat}
    (h : DChainRep c [i + 2] fs) (t : Int) :
    c.rejuvenate_index i t = (true, c) := by
  have hq0 : cnxt c.cells (i + 2) = 0 := h.allocNext.2
  have hp0 : cprv c.cells (i + 2) = 0 := by
    have := h.allocPrev
    simp only [List.reverse_singleton] at this
    exact this.2
  simp only [DoubleChain.rejuvenate_index, INDEX_SHIFT, ALLOC_LIST_HEAD]
  rw [if_pos (show (getCell c.cells (i + 2)).next = (getCell c.cells (i + 2)).prev
      from hq0.trans hp0.symm),
    if_neg (show ¬ (getCell c.cells (i + 2)).next ≠ 0 from fun hcon => hcon hq0)]

/-- Touching an occupied slot that is not the sole occupied one succeeds,
moves its cell to the newest end of the occupied list and refreshes its
timestamp. -/
theorem rejuvenate_index_occ {c : DoubleChain} {as1 as2 fs : List Nat} {i : Nat}
    (h : DChainRep c (as1 ++ (i + 2) :: as2) fs)
    (hne : ¬ (as1 = [] ∧ as2 = [])) (t : Int) :
    ∃ c', c.rejuvenate_index i t = (true, c') ∧
      DChainRep c' ((as1 ++ as2) ++ [i + 2]) fs ∧
      c'.timestamps = c.timestamps.set i t := by
  have hL := h.bounds (i + 2) (List.mem_append_left fs (by simp))
  have hndas : (as1 ++ (i + 2) :: as2).Nodup := (List.nodup_append.1 h.nodup).1
  have hLas : (i + 2) ∉ as1 ++ as2 := by
    rw [List.nodup_append, List.nodup_cons] at hndas
    intro hmem
    rcases List.mem_append.1 hmem with hm | hm
    · exact hndas.2.2 hm (by simp)
    · exact hndas.2.1.1 hm
  have hLfs : (i + 2) ∉ fs :=
    fun hm => (List.nodup_append.1 h.nodup).2.2
      (show (i + 2) ∈ as1 ++ (i + 2) :: as2 by simp) hm
  have hnd2 : (as1 ++ as2).Nodup := by
    have hndas' := (List.nodup_append.1 h.nodup).1
    rw [List.nodup_append] at hndas' ⊢
    obtain ⟨h1, h2, h3⟩ := hndas'
    exact ⟨h1, (List.nodup_cons.1 h2).2, fun a ha hb => h3 ha (by simp [hb])⟩
  obtain ⟨hsp1, hsp2, hsp3, hsp4, hsp5⟩ := spliceOut_rep_all h
  have hbs2 : ∀ z ∈ as1 ++ as2, 2 ≤ z ∧ z < c.timestamps.length + 2 := by
    intro z hz
    refine h.bounds z (List.mem_append_left fs ?_)
    rcases List.mem_append.1 hz with hm | hm
    · exact List.mem_append_left _ hm
    · exact List.mem_append_right _ (by simp [hm])
  have hgs : ∀ z ∈ fs, 2 ≤ z ∧ z < c.timestamps.length + 2 :=
    fun z hz => h.bounds z (List.mem_append_right _ hz)
  have hdisj : ∀ z ∈ fs, z ∉ as1 ++ as2 := by
    intro z hz hmem
    refine (List.nodup_append.1 h.nodup).2.2 ?_ hz
    rcases List.mem_append.1 hmem with hm | hm
    · exact List.mem_append_left _ hm
    · exact List.mem_append_right _ (by simp [hm])
  have hlen2 : (spliceOut c.cells (cprv c.cells (i + 2)) (cnxt c.cells (i + 2))).length =
      c.timestamps.length + 2 := by rw [length_spliceOut]; exact h.len
  obtain ⟨hp1, hp2, hp3, hp4, hp5⟩ :=
    appendEnd_rep hlen2 hbs2 hgs hnd2 hdisj hL.1 hL.2 hLas hLfs hsp1 hsp2 hsp3 hsp4 hsp5
  refine ⟨⟨appendEnd (spliceOut c.cells (cprv c.cells (i + 2)) (cnxt c.cells (i + 2)))
      (i + 2), c.timestamps.set i t⟩, ?_, ?_, rfl⟩
  · simp only [DoubleChain.rejuvenate_index, INDEX_SHIFT, ALLOC_LIST_HEAD]
    rw [if_neg]
    · rfl
    · rcases h.occ_guard with ⟨he1, he2, _⟩ | hneq
      · exact absurd ⟨he1, he2⟩ hne
      · exact fun hcon => hneq hcon
  · refine ⟨?_, hp1, hp2, hp3, hp4, hp5, ?_⟩
    · show (appendEnd _ _).length = (c.timestamps.set i t).length + 2
      rw [length_appendEnd, List.length_set]
      exact hlen2
    · show (((as1 ++ as2) ++ [i + 2]) ++ fs).Perm
        (List.range' 2 (c.timestamps.set i t).length)
      rw [List.length_set]
      refine List.Perm.trans (List.Perm.append_right fs ?_) h.perm
      refine List.Perm.trans List.perm_append_comm ?_
      rw [List.singleton_append]
      exact List.perm_middle.symm

/-- With an empty free list, allocation fails and changes nothing. -/
theorem allocate_new_index_fail {c : DoubleChain} {as : List Nat}
    (h : DChainRep c as []) (t : Int) :
    c.allocate_new_index t = (none, c) := by
  have hfe : cnxt c.cells 1 = 1 := h.freeNext
  simp only [DoubleChain.allocate_new_index, FREE_LIST_HEAD, INDEX_SHIFT]
  rw [if_pos (show (getCell c.cells 1).next = 1 from hfe)]

/-- With a nonempty free list, allocation pops its head cell, appends it at
the newest end of the occupied list, and stamps its timestamp. -/
theorem allocate_new_index_succ {c : DoubleChain} {as fs' : List Nat} {f0 : Nat}
    (h : DChainRep c as (f0 :: fs')) (t : Int) :
    ∃ c', c.allocate_new_index t = (some (f0 - 2), c') ∧
      DChainRep c' (as ++ [f0]) fs' ∧
      c'.timestamps = c.timestamps.set (f0 - 2) t := by
  have hf0 : (getCell c.cells 1).next = f0 := h.freeNext.1
  have hf0b := h.bounds f0 (List.mem_append_right _ (by simp))
  have hfs : ∀ z ∈ f0 :: fs', 2 ≤ z ∧ z < c.timestamps.length + 2 :=
    fun z hz => h.bounds z (List.mem_append_right _ hz)
  have hbs : ∀ z ∈ as, 2 ≤ z ∧ z < c.timestamps.length + 2 :=
    fun z hz => h.bounds z (List.mem_append_left _ hz)
  have hndas : as.Nodup := (List.nodup_append.1 h.nodup).1
  have hdisj' := (List.nodup_append.1 h.nodup).2.2
  have hf0as : f0 ∉ as := fun hm => hdisj' hm (by simp)
  have hf0fs : f0 ∉ fs' := (List.nodup_cons.1 (List.nodup_append.1 h.nodup).2.1).1
  have hdisj : ∀ z ∈ fs', z ∉ as := fun z hz hm => hdisj' hm (by simp [hz])
  obtain ⟨hq1, hq2, hq3, hq4, hq5⟩ :=
    popFree_rep h.len hbs hfs h.freeNext h.allocNext h.allocPrev h.freeEq h.freeHeadEq
  have hlen2 : (popFree c.cells (cnxt c.cells f0)).length = c.timestamps.length + 2 := by
    rw [length_popFree]; exact h.len
  have hfs' : ∀ z ∈ fs', 2 ≤ z ∧ z < c.timestamps.length + 2 :=
    fun z hz => hfs z (by simp [hz])
  obtain ⟨hp1, hp2, hp3, hp4, hp5⟩ :=
    appendEnd_rep hlen2 hbs hfs' hndas hdisj hf0b.1 hf0b.2 hf0as hf0fs hq1 hq2 hq3 hq4 hq5
  refine ⟨⟨appendEnd (popFree c.cells (cnxt c.cells f0)) f0,
      c.timestamps.set (f0 - 2) t⟩, ?_, ?_, rfl⟩
  · simp only [DoubleChain.allocate_new_index, FREE_LIST_HEAD, INDEX_SHIFT]
    rw [if_neg (show ¬ (getCell c.cells 1).next = 1 by rw [hf0]; omega)]
    rw [hf0]
    rfl
  · refine ⟨?_, hp1, hp2, hp3, hp4, hp5, ?_⟩
    · show (appendEnd _ _).length = (c.timestamps.set (f0 - 2) t).length + 2
      rw [length_appendEnd, List.length_set]
      exact hlen2
    · show ((as ++ [f0]) ++ fs').Perm (List.range' 2 (c.timestamps.set (f0 - 2) t).length)
      rw [List.length_set, List.append_assoc, List.singleton_append]
      exact h.perm

/-- `get_oldest_index` returns the head of the occupied list, unshifted. -/
theorem get_oldest_index_rep {c : DoubleChain} {as fs : List Nat}
    (h : DChainRep c as fs) :
    c.get_oldest_index = as.head?.map (fun a => a - 2) := by
  cases as with
  | nil =>
    have h0 : cnxt c.cells 0 = 0 := h.allocNext
    simp only [DoubleChain.get_oldest_index, ALLOC_LIST_HEAD, INDEX_SHIFT]
    rw [if_pos (show (getCell c.cells 0).next = 0 from h0)]
    rfl
  | cons a ms =>
    have h0 : cnxt c.cells 0 = a := h.allocNext.1
    have ha2 : 2 ≤ a := (h.bounds a (List.mem_append_left fs (by simp))).1
    simp only [DoubleChain.get_oldest_index, ALLOC_LIST_HEAD, INDEX_SHIFT]
    rw [if_neg (show ¬ (getCell c.cells 0).next = 0 by
      show ¬ cnxt c.cells 0 = 0
      rw [h0]; omega)]
    show some ((getCell c.cells 0).next - 2) = some (a - 2)
    rw [show (getCell c.cells 0).next = a from h0]

/-- `is_index_allocated` answers membership of the occupied list. -/
theorem is_index_allocated_rep {c : DoubleChain} {as fs : List Nat} {i : Nat}
    (h : DChainRep c as fs) (hi : i < c.timestamps.length) :
    c.is_index_allocated i = true ↔ (i + 2) ∈ as := by
  rcases h.total i hi with hmem | hmem
  · obtain ⟨s, u, rfl⟩ := List.append_of_mem hmem
    have htrue : c.is_index_allocated i = true := by
      simp only [DoubleChain.is_index_allocated, INDEX_SHIFT, ALLOC_LIST_HEAD]
      rcases h.occ_guard with ⟨_, _, hq0, hp0⟩ | hneq
      · rw [if_pos (show (getCell c.cells (i + 2)).next = (getCell c.cells (i + 2)).prev
            from hq0.trans hp0.symm)]
        rw [if_neg (show ¬ (getCell c.cells (i + 2)).next ≠ 0 from fun hcon => hcon hq0)]
      · rw [if_neg (show ¬ (getCell c.cells (i + 2)).next = (getCell c.cells (i + 2)).prev
            from hneq)]
    simp [htrue, hmem]
  · obtain ⟨heq, hne⟩ := h.free_cell_guard hmem
    have hfalse : c.is_index_allocated i = false := by
      simp only [DoubleChain.is_index_allocated, INDEX_SHIFT, ALLOC_LIST_HEAD]
      rw [if_pos (show (getCell c.cells (i + 2)).next = (getCell c.cells (i + 2)).prev
          from heq.symm)]
      rw [if_pos (show (getCell c.cells (i + 2)).next ≠ 0 from hne)]
    have hnot : (i + 2) ∉ as :=
      fun hm => (List.nodup_append.1 h.nodup).2.2 hm hmem
    simp [hfalse, hnot]

/-- Full characterisation of `expire_one_index` under the invariant: the
oldest occupied slot is freed if and only if its timestamp is strictly
older than `time - EXPIRATION_TIME_NS`; otherwise nothing changes. -/
theorem expire_one_index_rep {c : DoubleChain} {as fs : List Nat}
    (h : DChainRep c as fs) (t : Int) :
    (as = [] → c.expire_one_index t = (none, c)) ∧
    (∀ a0 as', as = a0 :: as' →
      (c.timestamps.getD (a0 - 2) 0 < t - EXPIRATION_TIME_NS →
        ∃ c', c.expire_one_index t = (some (a0 - 2), c') ∧
          DChainRep c' as' (a0 :: fs) ∧ c'.timestamps = c.timestamps) ∧
      (¬ c.timestamps.getD (a0 - 2) 0 < t - EXPIRATION_TIME_NS →
        c.expire_one_index t = (none, c))) := by
  constructor
  · intro rfl_as
    subst rfl_as
    have hold := get_oldest_index_rep h
    simp only [DoubleChain.expire_one_index, hold, List.head?, Option.map]
  · intro a0 as' hs
    subst hs
    have hold := get_oldest_index_rep h
    have ha2 : 2 ≤ a0 := (h.bounds a0 (List.mem_append_left fs (by simp))).1
    have ha0 : a0 - 2 + 2 = a0 := by omega
    constructor
    · intro hts
      have h' : DChainRep c ([] ++ (a0 - 2 + 2) :: as') fs := by
        rw [ha0]
        simpa using h
      obtain ⟨c', hfree, hrep, htimes⟩ := free_index_occ h'
      refine ⟨c', ?_, ?_, htimes⟩
      · simp only [DoubleChain.expire_one_index, hold, List.head?, Option.map]
        rw [if_pos hts, hfree]
        rfl
      · rw [ha0] at hrep
        simpa using hrep
    · intro hts
      simp only [DoubleChain.expire_one_index, hold, List.head?, Option.map]
      rw [if_neg hts]

/-! ### The freshly constructed arena satisfies the invariant -/

theorem getCell_replicate (m z : Nat) :
    getCell (List.replicate m (⟨0, 0⟩ : dchain_cell_t)) z = ⟨0, 0⟩ := by
  induction m generalizing z with
  | zero => simp [getCell]
  | succ k ih =>
    cases z with
    | zero => simp [getCell, List.replicate]
    | succ w => simpa [getCell, List.replicate] using ih w

theorem initFreeCellsAux_spec (k : Nat) :
    ∀ (cs : List dchain_cell_t) (i : Nat), i + k ≤ cs.length →
      (initFreeCellsAux cs i k).1.length = cs.length ∧
      (initFreeCellsAux cs i k).2 = i + k ∧
      ∀ z, getCell (initFreeCellsAux cs i k).1 z =
        if i ≤ z ∧ z < i + k then ⟨z + 1, z + 1⟩ else getCell cs z := by
  induction k with
  | zero =>
    intro cs i hlen
    refine ⟨rfl, rfl, ?_⟩
    intro z
    rw [if_neg (by omega)]
    rfl
  | succ k ih =>
    intro cs i hlen
    have hilen : i < cs.length := by omega
    have hlen' : (setNext (setPrev cs i (i + 1)) i (i + 1)).length = cs.length := by
      simp [setPrev, setNext]
    obtain ⟨ih1, ih2, ih3⟩ := ih (setNext (setPrev cs i (i + 1)) i (i + 1)) (i + 1)
      (by omega)
    have hcell : ∀ z, getCell (setNext (setPrev cs i (i + 1)) i (i + 1)) z =
        if z = i then ⟨i + 1, i + 1⟩ else getCell cs z := by
      intro z
      by_cases hz : z = i
      · subst hz
        simp [getCell_setNext, getCell_setPrev, length_setPrev, hilen]
      · simp [getCell_setNext, getCell_setPrev, hz]
    refine ⟨by rw [show initFreeCellsAux cs i (k + 1) =
        initFreeCellsAux (setNext (setPrev cs i (i + 1)) i (i + 1)) (i + 1) k
        from rfl]; rw [ih1, hlen'], ?_, ?_⟩
    · show (initFreeCellsAux (setNext (setPrev cs i (i + 1)) i (i + 1)) (i + 1) k).2 =
        i + (k + 1)
      rw [ih2]; omega
    · intro z
      show getCell (initFreeCellsAux (setNext (setPrev cs i (i + 1)) i (i + 1)) (i + 1) k).1 z = _
      rw [ih3 z, hcell z]
      by_cases h1 : (i + 1) ≤ z ∧ z < i + 1 + k
      · rw [if_pos h1, if_pos (by omega)]
      · rw [if_neg h1]
        by_cases h2 : z = i
        · subst h2
          rw [if_pos rfl, if_pos (by omega)]
        · rw [if_neg h2, if_neg (by omega)]

/-- Pointwise description of the constructor result, for capacity at least 1. -/
theorem mkDoubleChain_getCell (n : Nat) (hn : 1 ≤ n) (z : Nat) :
    getCell (mkDoubleChain n).cells z =
      if z = 0 then ⟨0, 0⟩
      else if z = 1 then ⟨2, 2⟩
      else if z < n + 1 then ⟨z + 1, z + 1⟩
      else if z = n + 1 then ⟨1, 1⟩
      else ⟨0, 0⟩ := by
  simp only [mkDoubleChain, DCHAIN_RESERVED, ALLOC_LIST_HEAD, FREE_LIST_HEAD, INDEX_SHIFT,
    initFreeCells]
  set cs0 := List.replicate (n + 2) (⟨0, 0⟩ : dchain_cell_t) with hcs0
  set cs1 := setNext (setPrev cs0 0 0) 0 0 with hcs1
  set cs2 := setNext cs1 1 2 with hcs2
  set cs3 := setPrev cs2 1 (getCell cs2 1).next with hcs3
  set p := initFreeCellsAux cs3 2 (n + 2 - 1 - 2) with hp
  set cs4 := setNext p.1 p.2 1 with hcs4
  set cs5 := setPrev cs4 p.2 (getCell cs4 p.2).next with hcs5
  have l0 : cs0.length = n + 2 := by rw [hcs0]; simp
  have g0 : ∀ w, getCell cs0 w = ⟨0, 0⟩ := by
    intro w; rw [hcs0]; exact getCell_replicate _ w
  have l1 : cs1.length = n + 2 := by rw [hcs1]; simp [setPrev, setNext]; omega
  have g1 : ∀ w, getCell cs1 w = ⟨0, 0⟩ := by
    intro w
    have hb : (0 : Nat) < n + 2 := by omega
    rw [hcs1, getCell_setNext, getCell_setPrev]
    by_cases hw : w = 0
    · subst hw
      simp [g0, length_setPrev, l0, hb]
    · simp [hw, g0, getCell_setPrev]
  have l2 : cs2.length = n + 2 := by rw [hcs2, length_setNext]; exact l1
  have g2 : ∀ w, getCell cs2 w = if w = 1 then ⟨0, 2⟩ else ⟨0, 0⟩ := by
    intro w
    have hb : (1 : Nat) < n + 2 := by omega
    rw [hcs2, getCell_setNext]
    by_cases hw : w = 1
    · subst hw
      simp [g1, l1, hb]
    · simp [hw, g1]
  have l3 : cs3.length = n + 2 := by rw [hcs3, length_setPrev]; exact l2
  have g3 : ∀ w, getCell cs3 w = if w = 1 then ⟨2, 2⟩ else ⟨0, 0⟩ := by
    intro w
    have hb : (1 : Nat) < n + 2 := by omega
    rw [hcs3, getCell_setPrev]
    by_cases hw : w = 1
    · subst hw
      simp [g2, l2, hb]
    · simp [hw, g2]
  have hk : n + 2 - 1 - 2 = n - 1 := by omega
  obtain ⟨pl, p2, pg⟩ := initFreeCellsAux_spec (n + 2 - 1 - 2) cs3 2 (by omega)
  rw [← hp] at pl p2 pg
  have hp2 : p.2 = n + 1 := by rw [p2]; omega
  have lp : p.1.length = n + 2 := by rw [pl]; exact l3
  have gp : ∀ w, getCell p.1 w =
      if 2 ≤ w ∧ w < n + 1 then ⟨w + 1, w + 1⟩
      else if w = 1 then ⟨2, 2⟩ else ⟨0, 0⟩ := by
    intro w
    rw [pg w, g3 w]
    by_cases h1 : 2 ≤ w ∧ w < 2 + (n + 2 - 1 - 2)
    · rw [if_pos h1, if_pos (show 2 ≤ w ∧ w < n + 1 by omega)]
    · rw [if_neg h1, if_neg (show ¬ (2 ≤ w ∧ w < n + 1) by omega)]
  have l4 : cs4.length = n + 2 := by rw [hcs4, length_setNext]; exact lp
  have g4 : ∀ w, getCell cs4 w =
      if w = n + 1 then ⟨0, 1⟩
      else if 2 ≤ w ∧ w < n + 1 then ⟨w + 1, w + 1⟩
      else if w = 1 then ⟨2, 2⟩ else ⟨0, 0⟩ := by
    intro w
    have h1 : ¬ (2 ≤ n + 1 ∧ n + 1 < n + 1) := by omega
    have h2 : n + 1 ≠ 1 := by omega
    have hb : n + 1 < n + 2 := by omega
    rw [hcs4, getCell_setNext, hp2]
    by_cases hw : w = n + 1
    · subst hw
      simp [lp, gp, h1, h2, hb]
    · rw [if_neg (by intro hcon; exact hw hcon.1), gp w, if_neg hw]
  have g5 : ∀ w, getCell cs5 w =
      if w = n + 1 then ⟨1, 1⟩
      else if 2 ≤ w ∧ w < n + 1 then ⟨w + 1, w + 1⟩
      else if w = 1 then ⟨2, 2⟩ else ⟨0, 0⟩ := by
    intro w
    have h1 : ¬ (2 ≤ n + 1 ∧ n + 1 < n + 1) := by omega
    have h2 : n + 1 ≠ 1 := by omega
    have hb : n + 1 < n + 2 := by omega
    rw [hcs5, getCell_setPrev, hp2]
    by_cases hw : w = n + 1
    · subst hw
      simp [l4, g4, hb]
    · rw [if_neg (by intro hcon; exact hw hcon.1), g4 w, if_neg hw, if_neg hw]
  rw [g5 z]
  have hn1 : n + 1 ≠ 0 := by omega
  have hn2 : n + 1 ≠ 1 := by omega
  split_ifs <;> first | rfl | omega

theorem initFreeCellsAux_length (k : Nat) :
    ∀ (cs : List dchain_cell_t) (i : Nat),
      (initFreeCellsAux cs i k).1.length = cs.length := by
  induction k with
  | zero => intro cs i; rfl
  | succ k ih =>
    intro cs i
    show (initFreeCellsAux (setNext (setPrev cs i (i + 1)) i (i + 1)) (i + 1) k).1.length = _
    rw [ih]
    simp [setPrev, setNext]

theorem mkDoubleChain_cells_length (n : Nat) :
    (mkDoubleChain n).cells.length = n + 2 := by
  simp only [mkDoubleChain, DCHAIN_RESERVED, ALLOC_LIST_HEAD, FREE_LIST_HEAD, INDEX_SHIFT,
    initFreeCells]
  rw [length_setPrev, length_setNext, initFreeCellsAux_length, length_setPrev,
    length_setNext, length_setNext, length_setPrev]
  simp

theorem mkDoubleChain_timestamps (n : Nat) :
    (mkDoubleChain n).timestamps = List.replicate n 0 := rfl

/-- The freshly constructed arena represents the empty occupied list and the
free list `2, 3, ..., n+1` in ascending order. -/
theorem mkDoubleChain_cellsRep (n : Nat) (hn : 1 ≤ n) :
    CellsRep (mkDoubleChain n).cells n [] (List.range' 2 n) := by
  have hg := mkDoubleChain_getCell n hn
  refine ⟨mkDoubleChain_cells_length n, ?_, ?_, ?_, ?_, ?_, ?_⟩
  · show cnxt _ 0 = 0
    show (getCell _ 0).next = 0
    rw [hg 0]
    rfl
  · show cprv _ 0 = 0
    show (getCell _ 0).prev = 0
    rw [hg 0]
    rfl
  · -- the free path 1 -> 2 -> ... -> n+1 -> 1
    have aux : ∀ k m, 2 ≤ m → m + k = n + 1 →
        isPath (cnxt (mkDoubleChain n).cells) m (List.range' (m + 1) k) 1 := by
      intro k
      induction k with
      | zero =>
        intro m hm2 hmk
        show cnxt _ m = 1
        have hmn : m = n + 1 := by omega
        subst hmn
        show (getCell _ (n + 1)).next = 1
        rw [hg (n + 1)]
        rw [if_neg (by omega), if_neg (by omega), if_neg (by omega), if_pos rfl]
      | succ k ih =>
        intro m hm2 hmk
        rw [List.range'_succ]
        refine ⟨?_, ?_⟩
        · show (getCell _ m).next = m + 1
          rw [hg m]
          rw [if_neg (by omega), if_neg (by omega), if_pos (by omega)]
        · have := ih (m + 1) (by omega) (by omega)
          simpa using this
    obtain ⟨m, rfl⟩ : ∃ m, n = m + 1 := ⟨n - 1, by omega⟩
    rw [List.range'_succ]
    refine ⟨?_, ?_⟩
    · show (getCell _ 1).next = 2
      rw [hg 1]
      rfl
    · have := aux m 2 (by omega) (by omega)
      simpa using this
  · intro x hx
    show (getCell _ x).prev = (getCell _ x).next
    rw [hg x]
    split_ifs <;> rfl
  · show (getCell _ 1).prev = (getCell _ 1).next
    rw [hg 1]
    split_ifs <;> rfl
  · simpa using List.Perm.refl (List.range' 2 n)

theorem mkDoubleChain_rep (n : Nat) (hn : 1 ≤ n) :
    DChainRep (mkDoubleChain n) [] (List.range' 2 n) := by
  show CellsRep (mkDoubleChain n).cells (mkDoubleChain n).timestamps.length [] _
  rw [show (mkDoubleChain n).timestamps.length = n by
    rw [mkDoubleChain_timestamps]; simp]
  exact mkDoubleChain_cellsRep n hn

/-! ### Arbitrary operation sequences -/

theorem allocate_timestamps_length (c : DoubleChain) (t : Int) :
    (c.allocate_new_index t).2.timestamps.length = c.timestamps.length := by
  simp only [DoubleChain.allocate_new_index]
  split_ifs <;> simp

theorem rejuvenate_timestamps_length (c : DoubleChain) (i : Nat) (t : Int) :
    (c.rejuvenate_index i t).2.timestamps.length = c.timestamps.length := by
  simp only [DoubleChain.rejuvenate_index]
  split_ifs <;> simp

theorem free_timestamps_length (c : DoubleChain) (i : Nat) :
    (c.free_index i).2.timestamps.length = c.timestamps.length := by
  simp only [DoubleChain.free_index]
  split_ifs <;> simp

theorem expire_timestamps_length (c : DoubleChain) (t : Int) :
    (c.expire_one_index t).2.timestamps.length = c.timestamps.length := by
  simp only [DoubleChain.expire_one_index]
  cases hold : c.get_oldest_index with
  | none => rfl
  | some i =>
    simp only
    split_ifs
    · exact free_timestamps_length c i
    · exact free_timestamps_length c i
    · rfl

theorem applyOp_timestamps_length (c : DoubleChain) (op : DCOp) :
    (applyOp c op).timestamps.length = c.timestamps.length := by
  cases op with
  | alloc t => exact allocate_timestamps_length c t
  | touch i t => exact rejuvenate_timestamps_length c i t
  | free i => exact free_timestamps_length c i
  | expire t => exact expire_timestamps_length c t

theorem applyOp_inv {c : DoubleChain} (op : DCOp)
    (hv : validOp c.timestamps.length op) (h : DCInv c) : DCInv (applyOp c op) := by
  obtain ⟨as, fs, hrep⟩ := h
  cases op with
  | alloc t =>
    show DCInv (c.allocate_new_index t).2
    cases fs with
    | nil =>
      rw [allocate_new_index_fail hrep t]
      exact ⟨as, [], hrep⟩
    | cons f0 fs' =>
      obtain ⟨c', heq, hrep', _⟩ := allocate_new_index_succ hrep t
      rw [heq]
      exact ⟨as ++ [f0], fs', hrep'⟩
  | touch i t =>
    show DCInv (c.rejuvenate_index i t).2
    rcases hrep.total i hv with hmem | hmem
    · obtain ⟨s, u, hsplit⟩ := List.append_of_mem hmem
      subst hsplit
      by_cases hsole : s = [] ∧ u = []
      · obtain ⟨rfl, rfl⟩ := hsole
        rw [rejuvenate_index_sole (by simpa using hrep) t]
        exact ⟨_, _, hrep⟩
      · obtain ⟨c', heq, hrep', _⟩ := rejuvenate_index_occ hrep hsole t
        rw [heq]
        exact ⟨_, _, hrep'⟩
    · rw [rejuvenate_index_of_free hrep hmem t]
      exact ⟨_, _, hrep⟩
  | free i =>
    show DCInv (c.free_index i).2
    rcases hrep.total i hv with hmem | hmem
    · obtain ⟨s, u, hsplit⟩ := List.append_of_mem hmem
      subst hsplit
      obtain ⟨c', heq, hrep', _⟩ := free_index_occ hrep
      rw [heq]
      exact ⟨_, _, hrep'⟩
    · rw [free_index_of_free hrep hmem]
      exact ⟨_, _, hrep⟩
  | expire t =>
    show DCInv (c.expire_one_index t).2
    obtain ⟨hnil, hcons⟩ := expire_one_index_rep hrep t
    cases as with
    | nil =>
      rw [hnil rfl]
      exact ⟨[], fs, hrep⟩
    | cons a0 as' =>
      by_cases hts : c.timestamps.getD (a0 - 2) 0 < t - EXPIRATION_TIME_NS
      · obtain ⟨c', heq, hrep', _⟩ := (hcons a0 as' rfl).1 hts
        rw [heq]
        exact ⟨_, _, hrep'⟩
      · rw [(hcons a0 as' rfl).2 hts]
        exact ⟨_, _, hrep⟩

theorem runOps_inv_aux (N : Nat) :
    ∀ (ops : List DCOp) (c : DoubleChain), DCInv c → c.timestamps.length = N →
      (∀ op ∈ ops, validOp N op) →
      DCInv (runOps c ops) ∧ (runOps c ops).timestamps.length = N := by
  intro ops
  induction ops with
  | nil => intro c hc hlen _; exact ⟨hc, hlen⟩
  | cons op rest ih =>
    intro c hc hlen hv
    show DCInv (runOps (applyOp c op) rest) ∧ _
    refine ih (applyOp c op) ?_ ?_ (fun o ho => hv o (by simp [ho]))
    · exact applyOp_inv op (by rw [hlen]; exact hv op (by simp)) hc
    · rw [applyOp_timestamps_length, hlen]

/-- C1: after every sequence of valid arena operations from a fresh arena of
capacity `N ≥ 1`, there are lists `as` (the Occupied list) and `fs` (the
Free list) represented in the cells, every real slot belongs to exactly one
of them, and their sizes sum to `N`. -/
theorem c1_slot_partition_invariant (N : Nat) (hN : 1 ≤ N) (ops : List DCOp)
    (hv : ∀ op ∈ ops, validOp N op) :
    ∃ as fs, DChainRep (runOps (mkDoubleChain N) ops) as fs ∧
      (∀ i, i < N → ((i + 2 ∈ as ∧ i + 2 ∉ fs) ∨ (i + 2 ∈ fs ∧ i + 2 ∉ as))) ∧
      as.length + fs.length = N := by
  have hts : (mkDoubleChain N).timestamps.length = N := by
    rw [mkDoubleChain_timestamps]; simp
  obtain ⟨⟨as, fs, hrep⟩, hlen⟩ := runOps_inv_aux N ops (mkDoubleChain N)
    ⟨[], List.range' 2 N, mkDoubleChain_rep N hN⟩ hts hv
  refine ⟨as, fs, hrep, ?_, ?_⟩
  · intro i hi
    have hdisj := (List.nodup_append.1 hrep.nodup).2.2
    rcases hrep.total i (by rw [hlen]; exact hi) with hm | hm
    · exact Or.inl ⟨hm, fun hc => hdisj hm hc⟩
    · exact Or.inr ⟨hm, fun hc => hdisj hc hm⟩
  · have := hrep.perm.length_eq
    rw [List.length_append, List.length_range'] at this
    rw [this, hlen]

theorem c1_witness :
    ∃ as fs, DChainRep (runOps (mkDoubleChain 1) [DCOp.alloc 0]) as fs ∧
      (∀ i, i < 1 → ((i + 2 ∈ as ∧ i + 2 ∉ fs) ∨ (i + 2 ∈ fs ∧ i + 2 ∉ as))) ∧
      as.length + fs.length = 1 :=
  c1_slot_partition_invariant 1 (by omega) [DCOp.alloc 0]
    (by intro op hop; simp at hop; subst hop; trivial)

theorem allocResults_rep :
    ∀ (ts : List Int) (c : DoubleChain) (as fs : List Nat), DChainRep c as fs →
      ts.length ≤ fs.length →
      (allocResults c ts).1 = (fs.take ts.length).map (fun x => some (x - 2)) ∧
      DChainRep (allocResults c ts).2 (as ++ fs.take ts.length) (fs.drop ts.length) := by
  intro ts
  induction ts with
  | nil =>
    intro c as fs h _
    exact ⟨rfl, by simpa using h⟩
  | cons t ts ih =>
    intro c as fs h hlen
    cases fs with
    | nil => simp at hlen
    | cons f0 fs' =>
      obtain ⟨c', heq, hrep', _⟩ := allocate_new_index_succ h t
      obtain ⟨ih1, ih2⟩ := ih c' (as ++ [f0]) fs' hrep' (by simpa using hlen)
      constructor
      · show (c.allocate_new_index t).1 :: (allocResults (c.allocate_new_index t).2 ts).1 = _
        rw [heq]
        simp only [List.length_cons, List.take_succ_cons, List.map_cons]
        rw [ih1]
      · show DChainRep (allocResults (c.allocate_new_index t).2 ts).2 _ _
        rw [heq]
        simp only [List.length_cons, List.take_succ_cons, List.drop_succ_cons]
        rw [← List.singleton_append, ← List.append_assoc]
        exact ih2

/-- C2: from a fresh arena of capacity `N ≥ 1`, `N` consecutive allocations
all succeed with pairwise distinct slot ids in `[0, N)` (in fact they return
exactly `0, 1, ..., N-1` in order); one further allocation fails, returns the
state unchanged, and in particular leaves `is_index_allocated` unchanged for
every slot. -/
theorem c2_capacity_bound (N : Nat) (hN : 1 ≤ N) (ts : List Int)
    (hts : ts.length = N) (textra : Int) :
    (allocResults (mkDoubleChain N) ts).1 = (List.range N).map some ∧
    (allocResults (mkDoubleChain N) ts).1.Nodup ∧
    (∀ x ∈ (allocResults (mkDoubleChain N) ts).1, ∃ i, i < N ∧ x = some i) ∧
    ((allocResults (mkDoubleChain N) ts).2.allocate_new_index textra =
      (none, (allocResults (mkDoubleChain N) ts).2)) ∧
    (∀ i, (((allocResults (mkDoubleChain N) ts).2.allocate_new_index textra).2).is_index_allocated i =
      (allocResults (mkDoubleChain N) ts).2.is_index_allocated i) := by
  have hlenr : (List.range' 2 N).length = N := by simp
  obtain ⟨h1, h2⟩ := allocResults_rep ts (mkDoubleChain N) [] (List.range' 2 N)
    (mkDoubleChain_rep N hN) (by rw [hts, hlenr])
  rw [hts] at h1 h2
  rw [show (List.range' 2 N).take N = List.range' 2 N from
    List.take_of_length_le (by rw [hlenr])] at h1 h2
  rw [show (List.range' 2 N).drop N = [] from
    List.drop_eq_nil_of_le (by rw [hlenr])] at h2
  have hres : (allocResults (mkDoubleChain N) ts).1 = (List.range N).map some := by
    rw [h1, List.range'_eq_map_range, List.map_map]
    refine List.map_congr_left ?_
    intro i hi
    simp
  have hfail := allocate_new_index_fail h2 textra
  refine ⟨hres, ?_, ?_, hfail, ?_⟩
  · rw [hres]
    exact List.Nodup.map (fun a b => by simp) (List.nodup_range _)
  · intro x hx
    rw [hres] at hx
    obtain ⟨i, hi, rfl⟩ := List.mem_map.1 hx
    exact ⟨i, List.mem_range.1 hi, rfl⟩
  · intro i
    rw [hfail]

theorem c2_witness :
    (allocResults (mkDoubleChain 2) [0, 1]).1 = (List.range 2).map some ∧
    (allocResults (mkDoubleChain 2) [0, 1]).1.Nodup ∧
    (∀ x ∈ (allocResults (mkDoubleChain 2) [0, 1]).1, ∃ i, i < 2 ∧ x = some i) ∧
    ((allocResults (mkDoubleChain 2) [0, 1]).2.allocate_new_index 7 =
      (none, (allocResults (mkDoubleChain 2) [0, 1]).2)) ∧
    (∀ i, (((allocResults (mkDoubleChain 2) [0, 1]).2.allocate_new_index 7).2).is_index_allocated i =
      (allocResults (mkDoubleChain 2) [0, 1]).2.is_index_allocated i) :=
  c2_capacity_bound 2 (by omega) [0, 1] (by simp) 7

/-- C3 counterexample: in a capacity-1 arena with slot 0 occupied (allocated
at time 0), `rejuvenate_index 0 5` returns true but leaves the timestamp at
0 instead of setting it to 5 — the sole-occupied case does not refresh the
timestamp, contrary to the claim. -/
theorem c3_counterexample :
    (((mkDoubleChain 1).allocate_new_index 0).2.is_index_allocated 0 = true) ∧
    ((((mkDoubleChain 1).allocate_new_index 0).2.rejuvenate_index 0 5).1 = true) ∧
    ((((mkDoubleChain 1).allocate_new_index 0).2.rejuvenate_index 0 5).2.timestamps.getD 0 0
      = 0) ∧
    ((0 : Int) ≠ 5) := by decide

/-- C3 amended: touching an occupied slot returns true and moves its cell to
the newest end of the Occupied list; the timestamp is set to `now` whenever
the slot is not the only occupied entry, while for the sole occupied entry
the call is a complete no-op (the timestamp included) that still returns
true. -/
theorem c3_touch_occupied {c : DoubleChain} {as1 as2 fs : List Nat} {i : Nat}
    (h : DChainRep c (as1 ++ (i + 2) :: as2) fs) (t : Int) :
    (as1 = [] ∧ as2 = [] → c.rejuvenate_index i t = (true, c)) ∧
    (¬ (as1 = [] ∧ as2 = []) →
      ∃ c', c.rejuvenate_index i t = (true, c') ∧
        DChainRep c' ((as1 ++ as2) ++ [i + 2]) fs ∧
        c'.timestamps = c.timestamps.set i t) := by
  constructor
  · rintro ⟨rfl, rfl⟩
    exact rejuvenate_index_sole (by simpa using h) t
  · intro hne
    exact rejuvenate_index_occ h hne t

theorem c3_witness :
    ∃ c', ((((mkDoubleChain 2).allocate_new_index 0).2.allocate_new_index 1).2.rejuvenate_index 0 9)
        = (true, c') ∧
      DChainRep c' (([] ++ [3]) ++ [0 + 2]) [] ∧
      c'.timestamps =
        (((mkDoubleChain 2).allocate_new_index 0).2.allocate_new_index 1).2.timestamps.set 0 9 := by
  have hrep : DChainRep (((mkDoubleChain 2).allocate_new_index 0).2.allocate_new_index 1).2
      ([] ++ (0 + 2) :: [3]) [] :=
    ⟨by decide, by decide, by decide, by decide, by decide, by decide, by decide⟩
  exact (c3_touch_occupied hrep 9).2 (by simp)

/-- C4 counterexample: slot 0 allocated at time 0 in a capacity-1 arena; at
`now = 5` with caller-supplied `maxAge = 1` the spec-described expireOne
would evict slot 0 (since 0 < 5 - 1), but `expire_one_index` returns none:
the threshold the code uses is the fixed constant `EXPIRATION_TIME_NS`, not
a caller-supplied `maxAge`. -/
theorem c4_counterexample :
    (expireOneSpec ((mkDoubleChain 1).allocate_new_index 0).2 5 1).1 = some 0 ∧
    (((mkDoubleChain 1).allocate_new_index 0).2.expire_one_index 5).1 = none ∧
    ((mkDoubleChain 1).allocate_new_index 0).2.timestamps.getD 0 0 < 5 - 1 := by decide

/-- C4 amended: `expire_one_index(now)` takes no `maxAge` argument; it frees
and returns the oldest occupied slot exactly when that slot's timestamp is
older than `now - EXPIRATION_TIME_NS` (a fixed one-second constant), and
otherwise returns none without mutating anything. -/
theorem c4_expire_uses_fixed_constant {c : DoubleChain} {as fs : List Nat}
    (h : DChainRep c as fs) (t : Int) :
    (as = [] → c.expire_one_index t = (none, c)) ∧
    (∀ a0 as', as = a0 :: as' →
      (c.timestamps.getD (a0 - 2) 0 < t - EXPIRATION_TIME_NS →
        ∃ c', c.expire_one_index t = (some (a0 - 2), c') ∧
          DChainRep c' as' (a0 :: fs) ∧ c'.timestamps = c.timestamps) ∧
      (¬ c.timestamps.getD (a0 - 2) 0 < t - EXPIRATION_TIME_NS →
        c.expire_one_index t = (none, c))) :=
  expire_one_index_rep h t

theorem c4_witness :
    (([2] : List Nat) = [] →
      ((mkDoubleChain 1).allocate_new_index 0).2.expire_one_index 1000000001 =
        (none, ((mkDoubleChain 1).allocate_new_index 0).2)) ∧
    (∀ a0 as', ([2] : List Nat) = a0 :: as' →
      ((((mkDoubleChain 1).allocate_new_index 0).2.timestamps.getD (a0 - 2) 0 <
          1000000001 - EXPIRATION_TIME_NS →
        ∃ c', ((mkDoubleChain 1).allocate_new_index 0).2.expire_one_index 1000000001 =
            (some (a0 - 2), c') ∧
          DChainRep c' as' (a0 :: []) ∧
          c'.timestamps = ((mkDoubleChain 1).allocate_new_index 0).2.timestamps) ∧
      (¬ (((mkDoubleChain 1).allocate_new_index 0).2.timestamps.getD (a0 - 2) 0 <
          1000000001 - EXPIRATION_TIME_NS) →
        ((mkDoubleChain 1).allocate_new_index 0).2.expire_one_index 1000000001 =
          (none, ((mkDoubleChain 1).allocate_new_index 0).2)))) := by
  have hrep : DChainRep ((mkDoubleChain 1).allocate_new_index 0).2 [2] [] :=
    ⟨by decide, by decide, by decide, by decide, by decide, by decide, by decide⟩
  exact c4_expire_uses_fixed_constant hrep 1000000001

/-- C5: capacity 3; allocate at times 0, 1, 2 (slots 0, 1, 2), touch slot 0
at time 3; the oldest occupied slot is now 1, not 0. -/
theorem c5_recency_ordering :
    ((((((mkDoubleChain 3).allocate_new_index 0).2.allocate_new_index 1).2.allocate_new_index
        2).2.rejuvenate_index 0 3).2.get_oldest_index = some 1) ∧
    ((((((mkDoubleChain 3).allocate_new_index 0).2.allocate_new_index 1).2.allocate_new_index
        2).2.rejuvenate_index 0 3).2.get_oldest_index ≠ some 0) := by decide

/-- C6: capacity 3; allocate slots 0, 1, 2, free slot 1; the next allocation
returns slot 1: the most recently freed slot is reused first (LIFO). -/
theorem c6_lifo_reuse :
    (((((mkDoubleChain 3).allocate_new_index 0).2.allocate_new_index 1).2.allocate_new_index
        2).2.free_index 1).1 = true ∧
    ((((((mkDoubleChain 3).allocate_new_index 0).2.allocate_new_index 1).2.allocate_new_index
        2).2.free_index 1).2.allocate_new_index 7).1 = some 1 := by decide

theorem allocate_fail_unchanged (c : DoubleChain) (t : Int)
    (h : (c.allocate_new_index t).1 = none) : (c.allocate_new_index t).2 = c := by
  simp only [DoubleChain.allocate_new_index] at h ⊢
  split_ifs at h ⊢ with h1
  all_goals first | rfl | simp at h

theorem rejuvenate_fail_unchanged (c : DoubleChain) (i : Nat) (t : Int)
    (h : (c.rejuvenate_index i t).1 = false) : (c.rejuvenate_index i t).2 = c := by
  simp only [DoubleChain.rejuvenate_index] at h ⊢
  split_ifs at h ⊢
  all_goals first | rfl | simp at h

theorem free_fail_unchanged (c : DoubleChain) (i : Nat)
    (h : (c.free_index i).1 = false) : (c.free_index i).2 = c := by
  simp only [DoubleChain.free_index] at h ⊢
  split_ifs at h ⊢
  all_goals first | rfl | simp at h

theorem expire_fail_unchanged (c : DoubleChain) (t : Int)
    (h : (c.expire_one_index t).1 = none) : (c.expire_one_index t).2 = c := by
  simp only [DoubleChain.expire_one_index] at h ⊢
  cases hold : c.get_oldest_index with
  | none => rfl
  | some i =>
    rw [hold] at h
    dsimp only at h ⊢
    split_ifs at h ⊢ with h1 h2
    all_goals first
      | rfl
      | exact free_fail_unchanged c i (by simpa using h2)
      | simp at h

/-- C7: every failing arena call leaves the state exactly as it was
(allocate returning none, touch returning false, free returning false,
expireOne returning none), and under the invariant a second consecutive
free of the same slot returns false and leaves the state of the first free
untouched. -/
theorem c7_failure_atomicity :
    (∀ (c : DoubleChain) (t : Int),
      (c.allocate_new_index t).1 = none → (c.allocate_new_index t).2 = c) ∧
    (∀ (c : DoubleChain) (i : Nat) (t : Int),
      (c.rejuvenate_index i t).1 = false → (c.rejuvenate_index i t).2 = c) ∧
    (∀ (c : DoubleChain) (i : Nat),
      (c.free_index i).1 = false → (c.free_index i).2 = c) ∧
    (∀ (c : DoubleChain) (t : Int),
      (c.expire_one_index t).1 = none → (c.expire_one_index t).2 = c) ∧
    (∀ (c : DoubleChain) (as1 as2 fs : List Nat) (i : Nat),
      DChainRep c (as1 ++ (i + 2) :: as2) fs →
      (c.free_index i).1 = true ∧
      ((c.free_index i).2.free_index i).1 = false ∧
      ((c.free_index i).2.free_index i).2 = (c.free_index i).2) := by
  refine ⟨allocate_fail_unchanged, rejuvenate_fail_unchanged, free_fail_unchanged,
    expire_fail_unchanged, ?_⟩
  intro c as1 as2 fs i h
  obtain ⟨c', heq, hrep', _⟩ := free_index_occ h
  have hsecond := free_index_of_free hrep' (by simp : i + 2 ∈ (i + 2) :: fs)
  rw [heq]
  exact ⟨rfl, by rw [hsecond], by rw [hsecond]⟩

theorem c7_witness :
    ((((mkDoubleChain 1).allocate_new_index 0).2.allocate_new_index 9).2 =
      ((mkDoubleChain 1).allocate_new_index 0).2) ∧
    ((((mkDoubleChain 1).allocate_new_index 0).2.free_index 0).1 = true ∧
      ((((mkDoubleChain 1).allocate_new_index 0).2.free_index 0).2.free_index 0).1 = false ∧
      ((((mkDoubleChain 1).allocate_new_index 0).2.free_index 0).2.free_index 0).2 =
        (((mkDoubleChain 1).allocate_new_index 0).2.free_index 0).2) := by
  have hrep : DChainRep ((mkDoubleChain 1).allocate_new_index 0).2 ([] ++ (0 + 2) :: []) [] :=
    ⟨by decide, by decide, by decide, by decide, by decide, by decide, by decide⟩
  exact ⟨c7_failure_atomicity.1 ((mkDoubleChain 1).allocate_new_index 0).2 9 (by decide),
    c7_failure_atomicity.2.2.2.2 ((mkDoubleChain 1).allocate_new_index 0).2 [] [] [] 0 hrep⟩

/-! ### The Keyed Tracker (`FlowTracker`, file flow_tracker.h / .cpp)

Keys (`flow_t` in the source) are opaque hashable values; the embedding is
parametric in the key type `K` with decidable equality (used for lookups)
and a default element (`std::vector<flow_t>(capacity)` value-initialises its
entries).  The `std::unordered_map` becomes an association list:
assignment through `operator[]` is an upsert, `erase` removes the key,
`contains` is a lookup. -/

/-! ### Association-list lemmas -/

theorem lookupSlot_nil {K : Type} [DecidableEq K] (k : K) :
    lookupSlot ([] : List (K × Nat)) k = none := rfl

theorem lookupSlot_cons {K : Type} [DecidableEq K] (p : K × Nat) (l : List (K × Nat))
    (k : K) :
    lookupSlot (p :: l) k = if p.1 = k then some p.2 else lookupSlot l k := by
  simp only [lookupSlot, List.find?]
  by_cases h : p.1 = k <;> simp [h]

theorem lookupSlot_eraseKey_self {K : Type} [DecidableEq K] (l : List (K × Nat)) (k : K) :
    lookupSlot (eraseKey l k) k = none := by
  induction l with
  | nil => rfl
  | cons p l ih =>
    by_cases h : p.1 = k
    · simpa [eraseKey, h] using ih
    · simpa [eraseKey, lookupSlot_cons, h] using ih

theorem lookupSlot_eraseKey_ne {K : Type} [DecidableEq K] (l : List (K × Nat)) (k k' : K)
    (h : k' ≠ k) : lookupSlot (eraseKey l k) k' = lookupSlot l k' := by
  induction l with
  | nil => rfl
  | cons p l ih =>
    by_cases hp : p.1 = k
    · rw [show eraseKey (p :: l) k = eraseKey l k by simp [eraseKey, hp]]
      rw [ih, lookupSlot_cons, if_neg (by rw [hp]; exact fun e => h e.symm)]
    · rw [show eraseKey (p :: l) k = p :: eraseKey l k by simp [eraseKey, hp]]
      rw [lookupSlot_cons, lookupSlot_cons, ih]

theorem lookupSlot_mapInsert_self {K : Type} [DecidableEq K] (l : List (K × Nat))
    (k : K) (v : Nat) : lookupSlot (mapInsert l k v) k = some v := by
  rw [mapInsert, lookupSlot_cons, if_pos rfl]

theorem lookupSlot_mapInsert_ne {K : Type} [DecidableEq K] (l : List (K × Nat))
    (k k' : K) (v : Nat) (h : k' ≠ k) :
    lookupSlot (mapInsert l k v) k' = lookupSlot l k' := by
  rw [mapInsert, lookupSlot_cons, if_neg (fun e => h e.symm), lookupSlot_eraseKey_ne l k k' h]

theorem lookupSlot_none_forall {K : Type} [DecidableEq K] {l : List (K × Nat)} {k : K}
    (h : lookupSlot l k = none) : ∀ p ∈ l, p.1 ≠ k := by
  induction l with
  | nil => intro p hp; cases hp
  | cons q l ih =>
    rw [lookupSlot_cons] at h
    intro p hp
    rcases List.mem_cons.1 hp with rfl | hp
    · intro hc
      rw [if_pos hc] at h
      cases h
    · by_cases hq : q.1 = k
      · rw [if_pos hq] at h; cases h
      · rw [if_neg hq] at h
        exact ih h p hp

theorem eraseKey_of_lookup_none {K : Type} [DecidableEq K] {l : List (K × Nat)} {k : K}
    (h : lookupSlot l k = none) : eraseKey l k = l := by
  rw [eraseKey, List.filter_eq_self]
  intro p hp
  simpa using lookupSlot_none_forall h p hp

theorem lookupSlot_eq_none_of_not_mem {K : Type} [DecidableEq K] {l : List (K × Nat)}
    {k : K} (h : k ∉ l.map Prod.fst) : lookupSlot l k = none := by
  induction l with
  | nil => rfl
  | cons q l ih =>
    rw [List.map_cons, List.mem_cons] at h
    push_neg at h
    rw [lookupSlot_cons, if_neg (fun e => h.1 e.symm), ih h.2]

theorem length_eraseKey_of_lookup_some {K : Type} [DecidableEq K]
    {l : List (K × Nat)} {k : K} {s : Nat}
    (hnd : (l.map Prod.fst).Nodup) (h : lookupSlot l k = some s) :
    (eraseKey l k).length + 1 = l.length := by
  induction l with
  | nil => cases h
  | cons p l ih =>
    rw [List.map_cons, List.nodup_cons] at hnd
    rw [lookupSlot_cons] at h
    by_cases hp : p.1 = k
    · have hnone : lookupSlot l k = none := by
        have := lookupSlot_eq_none_of_not_mem hnd.1
        rwa [hp] at this
      rw [show eraseKey (p :: l) k = eraseKey l k by simp [eraseKey, hp]]
      rw [eraseKey_of_lookup_none hnone]
      simp
    · rw [if_neg hp] at h
      rw [show eraseKey (p :: l) k = p :: eraseKey l k by simp [eraseKey, hp]]
      simp only [List.length_cons]
      rw [ih hnd.2 h]

theorem eraseKey_keys_nodup {K : Type} [DecidableEq K] {l : List (K × Nat)} (k : K)
    (hnd : (l.map Prod.fst).Nodup) : ((eraseKey l k).map Prod.fst).Nodup := by
  refine List.Nodup.sublist (List.Sublist.map Prod.fst ?_) hnd
  exact List.filter_sublist l

theorem lookupSlot_mem {K : Type} [DecidableEq K] {l : List (K × Nat)} {k : K} {s : Nat}
    (h : lookupSlot l k = some s) : (k, s) ∈ l := by
  induction l with
  | nil => cases h
  | cons p l ih =>
    rw [lookupSlot_cons] at h
    by_cases hp : p.1 = k
    · rw [if_pos hp] at h
      have : p = (k, s) := by
        obtain ⟨p1, p2⟩ := p
        simp at hp h
        simp [hp, h]
      simp [this]
    · rw [if_neg hp] at h
      exact List.mem_cons_of_mem _ (ih h)

theorem lookupSlot_eraseKey_some {K : Type} [DecidableEq K] {l : List (K × Nat)}
    {k k' : K} {s : Nat} (h : lookupSlot (eraseKey l k) k' = some s) :
    lookupSlot l k' = some s := by
  by_cases hk : k' = k
  · subst hk
    rw [lookupSlot_eraseKey_self] at h
    cases h
  · rwa [lookupSlot_eraseKey_ne l k k' hk] at h

theorem mkFlowTracker_rep (K : Type) [DecidableEq K] [Inhabited K] (N : Nat)
    (hN : 1 ≤ N) : TrackerRep (mkFlowTracker K N) [] (List.range' 2 N) := by
  refine ⟨mkDoubleChain_rep N hN, ?_, ?_, ?_, ?_⟩
  · show (List.replicate N (default : K)).length = (mkDoubleChain N).timestamps.length
    rw [mkDoubleChain_timestamps]
    simp
  · show (([] : List (K × Nat)).map Prod.fst).Nodup
    simp
  · intro k s h
    simp [lookupSlot, mkFlowTracker] at h
  · intro x hx
    cases hx

theorem has_flow_iff_lookup {K : Type} [DecidableEq K] (t : FlowTracker K) (k : K) :
    t.has_flow k = true ↔ ∃ s, lookupSlot t.flow_to_index k = some s := by
  rw [FlowTracker.has_flow, Option.isSome_iff_exists]

theorem lookup_none_of_has_flow_false {K : Type} [DecidableEq K] {t : FlowTracker K}
    {k : K} (h : t.has_flow k = false) : lookupSlot t.flow_to_index k = none := by
  cases hl : lookupSlot t.flow_to_index k with
  | none => rfl
  | some s =>
    rw [FlowTracker.has_flow, hl] at h
    cases h

/-- Behaviour of `add_flow` under the tracker invariant: a present key is a
no-op returning the tracker unchanged; an absent key allocates the head of
the free list, records the two mappings, and fails (aborts) only when the
arena is exhausted. -/
theorem add_flow_rep {K : Type} [DecidableEq K] [Inhabited K] {t : FlowTracker K}
    {as fs : List Nat} (h : TrackerRep t as fs) (k : K) (now : Int) :
    (t.has_flow k = true → t.add_flow k now = some t) ∧
    (t.has_flow k = false → fs = [] → t.add_flow k now = none) ∧
    (∀ f0 fs', t.has_flow k = false → fs = f0 :: fs' →
      ∃ t', t.add_flow k now = some t' ∧ TrackerRep t' (as ++ [f0]) fs' ∧
        lookupSlot t'.flow_to_index k = some (f0 - 2) ∧
        t'.flow_to_index.length = t.flow_to_index.length + 1) := by
  obtain ⟨hdc, hlen, hnd, hdir1, hdir2⟩ := h
  refine ⟨?_, ?_, ?_⟩
  · intro htrue
    rw [FlowTracker.add_flow, if_pos htrue]
  · intro hfalse hfs
    subst hfs
    rw [FlowTracker.add_flow, if_neg (by rw [hfalse]; simp),
      allocate_new_index_fail hdc now]
  · intro f0 fs' hfalse hfs
    subst hfs
    have hnone : lookupSlot t.flow_to_index k = none := lookup_none_of_has_flow_false hfalse
    have hf0 := hdc.bounds f0 (List.mem_append_right _ (by simp))
    have hf0as : f0 ∉ as := fun hm => (List.nodup_append.1 hdc.nodup).2.2 hm (by simp)
    obtain ⟨c', heq, hrep', htimes⟩ := allocate_new_index_succ hdc now
    refine ⟨⟨c', mapInsert t.flow_to_index k (f0 - 2),
      t.index_to_flow.set (f0 - 2) k⟩, ?_, ?_, ?_, ?_⟩
    · rw [FlowTracker.add_flow, if_neg (by rw [hfalse]; simp), heq]
    · have hidxlen : f0 - 2 < t.index_to_flow.length := by
        rw [hlen]
        omega
      refine ⟨hrep', ?_, ?_, ?_, ?_⟩
      · show (t.index_to_flow.set (f0 - 2) k).length = c'.timestamps.length
        rw [List.length_set, htimes, List.length_set]
        exact hlen
      · show ((mapInsert t.flow_to_index k (f0 - 2)).map Prod.fst).Nodup
        rw [mapInsert, eraseKey_of_lookup_none hnone, List.map_cons, List.nodup_cons]
        refine ⟨?_, hnd⟩
        intro hmem
        simp only [List.mem_map] at hmem
        obtain ⟨p, hp, hp1⟩ := hmem
        exact lookupSlot_none_forall hnone p hp (by simpa using hp1)
      · intro k' s' hl
        by_cases hk : k' = k
        · rw [hk] at hl ⊢
          rw [lookupSlot_mapInsert_self] at hl
          have hs' : s' = f0 - 2 := by
            injection hl with h'
            exact h'.symm
          rw [hs']
          refine ⟨by rw [show f0 - 2 + 2 = f0 by omega]; simp, ?_⟩
          exact getD_set_self _ _ _ _ hidxlen
        · rw [lookupSlot_mapInsert_ne _ _ _ _ hk] at hl
          obtain ⟨hmem', hkey'⟩ := hdir1 k' s' hl
          refine ⟨List.mem_append_left _ hmem', ?_⟩
          show (t.index_to_flow.set (f0 - 2) k).getD s' default = k'
          rw [getD_set_ne]
          · exact hkey'
          · intro hcon
            rw [hcon] at hmem'
            have : f0 - 2 + 2 = f0 := by omega
            exact hf0as (this ▸ hmem')
      · intro x hx
        rcases List.mem_append.1 hx with hx | hx
        · have hxb := hdc.bounds x (List.mem_append_left _ hx)
          have hxne : x - 2 ≠ f0 - 2 := by
            intro hcon
            have : x = f0 := by omega
            exact hf0as (this ▸ hx)
          show lookupSlot (mapInsert t.flow_to_index k (f0 - 2))
            ((t.index_to_flow.set (f0 - 2) k).getD (x - 2) default) = some (x - 2)
          rw [getD_set_ne _ _ _ _ _ hxne]
          have hold := hdir2 x hx
          have hkne : t.index_to_flow.getD (x - 2) default ≠ k := by
            intro hcon
            rw [hcon, hnone] at hold
            cases hold
          rw [lookupSlot_mapInsert_ne _ _ _ _ hkne]
          exact hold
        · rw [List.mem_singleton] at hx
          rw [hx]
          show lookupSlot (mapInsert t.flow_to_index k (f0 - 2))
            ((t.index_to_flow.set (f0 - 2) k).getD (f0 - 2) default) = some (f0 - 2)
          rw [getD_set_self _ _ _ _ hidxlen, lookupSlot_mapInsert_self]
    · exact lookupSlot_mapInsert_self _ _ _
    · show (mapInsert t.flow_to_index k (f0 - 2)).length = _
      rw [mapInsert, eraseKey_of_lookup_none hnone]
      simp

/-- Behaviour of the expiration loop under the tracker invariant: starting
with occupied list `as` and at least `as.length` fuel, the loop preserves
the invariant, removes exactly as many keys from the forward table as it
counts, and introduces no new keys. -/
theorem expire_flows_aux_spec {K : Type} [DecidableEq K] [Inhabited K] (now : Int) :
    ∀ (fuel : Nat) (t : FlowTracker K) (as fs : List Nat),
      TrackerRep t as fs → as.length ≤ fuel →
      ∃ as' fs', TrackerRep (FlowTracker.expire_flows_aux fuel t now).2 as' fs' ∧
        (FlowTracker.expire_flows_aux fuel t now).1 +
          (FlowTracker.expire_flows_aux fuel t now).2.flow_to_index.length =
          t.flow_to_index.length ∧
        (∀ k, (FlowTracker.expire_flows_aux fuel t now).2.has_flow k = true →
          t.has_flow k = true) := by
  intro fuel
  induction fuel with
  | zero =>
    intro t as fs h _
    exact ⟨as, fs, h, by simp [FlowTracker.expire_flows_aux], fun k hk => hk⟩
  | succ fuel ih =>
    intro t as fs h hfuel
    obtain ⟨hdc, hlen, hnd, hdir1, hdir2⟩ := h
    obtain ⟨hnil, hcons⟩ := expire_one_index_rep hdc now
    cases as with
    | nil =>
      have hexp := hnil rfl
      show ∃ as' fs', TrackerRep (FlowTracker.expire_flows_aux (fuel + 1) t now).2 as' fs' ∧ _
      rw [show FlowTracker.expire_flows_aux (fuel + 1) t now =
          (0, ⟨t.double_chain, t.flow_to_index, t.index_to_flow⟩) by
        rw [FlowTracker.expire_flows_aux, hexp]]
      exact ⟨[], fs, ⟨hdc, hlen, hnd, hdir1, hdir2⟩, by simp, fun k hk => hk⟩
    | cons a0 as' =>
      by_cases hts : t.double_chain.timestamps.getD (a0 - 2) 0 < now - EXPIRATION_TIME_NS
      · obtain ⟨c', hexp, hrep', htimes⟩ := (hcons a0 as' rfl).1 hts
        have ha0b := hdc.bounds a0 (List.mem_append_left _ (by simp))
        have ha0as' : a0 ∉ as' := by
          have := hdc.nodup
          rw [show (a0 :: as') ++ fs = a0 :: (as' ++ fs) by simp, List.nodup_cons] at this
          exact fun hm => this.1 (List.mem_append_left _ hm)
        have hlook : lookupSlot t.flow_to_index
            (t.index_to_flow.getD (a0 - 2) default) = some (a0 - 2) :=
          hdir2 a0 (by simp)
        have htrep' : TrackerRep
            (⟨c', eraseKey t.flow_to_index (t.index_to_flow.getD (a0 - 2) default),
              t.index_to_flow⟩ : FlowTracker K) as' (a0 :: fs) := by
          refine ⟨hrep', ?_, eraseKey_keys_nodup _ hnd, ?_, ?_⟩
          · show t.index_to_flow.length = c'.timestamps.length
            rw [htimes]
            exact hlen
          · intro k s hl
            have hl' := lookupSlot_eraseKey_some hl
            obtain ⟨hmem, hkey⟩ := hdir1 k s hl'
            rcases List.mem_cons.1 hmem with hse | hse
            · exfalso
              have hs : s = a0 - 2 := by omega
              rw [hs] at hkey
              rw [hkey] at hl
              rw [lookupSlot_eraseKey_self] at hl
              cases hl
            · exact ⟨hse, hkey⟩
          · intro x hx
            have hxb := hdc.bounds x (List.mem_append_left _ (by simp [hx]))
            have hold := hdir2 x (by simp [hx])
            have hkne : t.index_to_flow.getD (x - 2) default ≠
                t.index_to_flow.getD (a0 - 2) default := by
              intro hcon
              rw [hcon, hlook] at hold
              have : x = a0 := by
                injection hold with h'
                omega
              exact ha0as' (this ▸ hx)
            show lookupSlot (eraseKey t.flow_to_index _) _ = some (x - 2)
            rw [lookupSlot_eraseKey_ne _ _ _ hkne]
            exact hold
        obtain ⟨as'', fs'', hrep'', hcnt, hsub⟩ :=
          ih ⟨c', eraseKey t.flow_to_index (t.index_to_flow.getD (a0 - 2) default),
            t.index_to_flow⟩ as' (a0 :: fs) htrep' (by simpa using Nat.le_of_succ_le_succ hfuel)
        have hkeycnt := length_eraseKey_of_lookup_some hnd hlook
        rw [show FlowTracker.expire_flows_aux (fuel + 1) t now =
            ((FlowTracker.expire_flows_aux fuel
              (⟨c', eraseKey t.flow_to_index (t.index_to_flow.getD (a0 - 2) default),
                t.index_to_flow⟩ : FlowTracker K) now).1 + 1,
             (FlowTracker.expire_flows_aux fuel
              (⟨c', eraseKey t.flow_to_index (t.index_to_flow.getD (a0 - 2) default),
                t.index_to_flow⟩ : FlowTracker K) now).2) by
          rw [FlowTracker.expire_flows_aux, hexp]]
        refine ⟨as'', fs'', hrep'', ?_, ?_⟩
        · dsimp only at hcnt ⊢
          omega
        · intro k hk
          have hk' := hsub k hk
          rw [has_flow_iff_lookup] at hk' ⊢
          obtain ⟨s, hs⟩ := hk'
          exact ⟨s, lookupSlot_eraseKey_some hs⟩
      · have hexp := (hcons a0 as' rfl).2 hts
        rw [show FlowTracker.expire_flows_aux (fuel + 1) t now =
            (0, ⟨t.double_chain, t.flow_to_index, t.index_to_flow⟩) by
          rw [FlowTracker.expire_flows_aux, hexp]]
        exact ⟨a0 :: as', fs, ⟨hdc, hlen, hnd, hdir1, hdir2⟩, by simp, fun k hk => hk⟩

theorem trackerRep_as_le {K : Type} [DecidableEq K] [Inhabited K]
    {t : FlowTracker K} {as fs : List Nat} (h : TrackerRep t as fs) :
    as.length ≤ t.index_to_flow.length := by
  obtain ⟨hdc, hlen, _⟩ := h
  have hperm := hdc.perm.length_eq
  rw [List.length_append] at hperm
  have : (List.range' 2 t.double_chain.timestamps.length).length =
      t.double_chain.timestamps.length := by simp
  rw [this] at hperm
  omega

/-- `expire_flows` under the invariant: the invariant is preserved, the
returned count is exactly the number of keys removed from the forward
table, and no key appears that was not tracked before. -/
theorem expire_flows_spec {K : Type} [DecidableEq K] [Inhabited K]
    {t : FlowTracker K} {as fs : List Nat} (h : TrackerRep t as fs) (now : Int) :
    ∃ as' fs', TrackerRep (t.expire_flows now).2 as' fs' ∧
      (t.expire_flows now).1 + (t.expire_flows now).2.flow_to_index.length =
        t.flow_to_index.length ∧
      (∀ k, (t.expire_flows now).2.has_flow k = true → t.has_flow k = true) :=
  expire_flows_aux_spec now t.index_to_flow.length t as fs h (trackerRep_as_le h)

theorem applyFTOp_inv {K : Type} [DecidableEq K] [Inhabited K]
    {t : FlowTracker K} (op : FTOp K) (h : TrackerInv t) : TrackerInv (applyFTOp t op) := by
  obtain ⟨as, fs, hrep⟩ := h
  cases op with
  | add k now =>
    show TrackerInv ((t.add_flow k now).getD t)
    obtain ⟨h1, h2, h3⟩ := add_flow_rep hrep k now
    cases hflow : t.has_flow k with
    | true =>
      rw [h1 hflow]
      exact ⟨as, fs, hrep⟩
    | false =>
      cases fs with
      | nil =>
        rw [h2 hflow rfl]
        exact ⟨as, [], hrep⟩
      | cons f0 fs' =>
        obtain ⟨t', heq, hrep', _, _⟩ := h3 f0 fs' hflow rfl
        rw [heq]
        exact ⟨as ++ [f0], fs', hrep'⟩
  | expire now =>
    show TrackerInv (t.expire_flows now).2
    obtain ⟨as', fs', hrep', _, _⟩ := expire_flows_spec hrep now
    exact ⟨as', fs', hrep'⟩

theorem runFTOps_inv {K : Type} [DecidableEq K] [Inhabited K] :
    ∀ (ops : List (FTOp K)) (t : FlowTracker K), TrackerInv t →
      TrackerInv (runFTOps t ops) := by
  intro ops
  induction ops with
  | nil => intro t h; exact h
  | cons op rest ih =>
    intro t h
    exact ih (applyFTOp t op) (applyFTOp_inv op h)

/-- C8: inserting a key that is already present is a no-op returning the
unchanged tracker: the key stays mapped to the same slot, nothing in the
arena changes (no allocation, no recency change, no timestamp refresh), and
the call succeeds. -/
theorem c8_idempotent_insert {K : Type} [DecidableEq K] [Inhabited K]
    (t t' : FlowTracker K) (k : K) (t0 t1 : Int) (hne : t1 ≠ t0)
    (h : t.add_flow k t0 = some t') :
    t'.has_flow k = true ∧ t'.add_flow k t1 = some t' := by
  have hflow : t'.has_flow k = true := by
    rw [FlowTracker.add_flow] at h
    split_ifs at h with hp
    · injection h with h'
      subst h'
      exact hp
    · rcases halloc : t.double_chain.allocate_new_index t0 with ⟨r, dc⟩
      rw [halloc] at h
      cases r with
      | none => cases h
      | some idx =>
        injection h with h'
        subst h'
        rw [has_flow_iff_lookup]
        exact ⟨idx, lookupSlot_mapInsert_self _ _ _⟩
  refine ⟨hflow, ?_⟩
  rw [FlowTracker.add_flow, if_pos hflow]

theorem c8_witness :
    (1 : Int) ≠ 0 ∧
    (mkFlowTracker Nat 1).add_flow 7 0 =
      some (((mkFlowTracker Nat 1).add_flow 7 0).getD (mkFlowTracker Nat 1)) ∧
    (((mkFlowTracker Nat 1).add_flow 7 0).getD (mkFlowTracker Nat 1)).has_flow 7 = true ∧
    (((mkFlowTracker Nat 1).add_flow 7 0).getD (mkFlowTracker Nat 1)).add_flow 7 1 =
      some (((mkFlowTracker Nat 1).add_flow 7 0).getD (mkFlowTracker Nat 1)) :=
  ⟨by decide, by decide,
    c8_idempotent_insert (mkFlowTracker Nat 1)
      (((mkFlowTracker Nat 1).add_flow 7 0).getD (mkFlowTracker Nat 1)) 7 0 1
      (by decide) (by decide)⟩

/-- C9: after any sequence of Keyed Tracker operations from a fresh tracker
of capacity `N ≥ 1`, every tracked key's slot is occupied and its reverse
entry is that key; and any expiration sweep removes exactly as many keys
from the forward table as it counts, without introducing new keys. -/
theorem c9_mapping_consistency (K : Type) [DecidableEq K] [Inhabited K] (N : Nat)
    (hN : 1 ≤ N) (ops : List (FTOp K)) (now : Int) :
    (∀ k s, lookupSlot (runFTOps (mkFlowTracker K N) ops).flow_to_index k = some s →
      (runFTOps (mkFlowTracker K N) ops).double_chain.is_index_allocated s = true ∧
      (runFTOps (mkFlowTracker K N) ops).index_to_flow.getD s default = k) ∧
    (((runFTOps (mkFlowTracker K N) ops).expire_flows now).1 +
      ((runFTOps (mkFlowTracker K N) ops).expire_flows now).2.flow_to_index.length =
      (runFTOps (mkFlowTracker K N) ops).flow_to_index.length) ∧
    (∀ k, ((runFTOps (mkFlowTracker K N) ops).expire_flows now).2.has_flow k = true →
      (runFTOps (mkFlowTracker K N) ops).has_flow k = true) := by
  obtain ⟨as, fs, hrep⟩ := runFTOps_inv ops (mkFlowTracker K N)
    ⟨[], List.range' 2 N, mkFlowTracker_rep K N hN⟩
  obtain ⟨hdc, hlen, hnd, hdir1, hdir2⟩ := hrep
  refine ⟨?_, ?_, ?_⟩
  · intro k s hl
    obtain ⟨hmem, hkey⟩ := hdir1 k s hl
    have hb := hdc.bounds (s + 2) (List.mem_append_left _ hmem)
    refine ⟨?_, hkey⟩
    rw [is_index_allocated_rep hdc (by omega)]
    exact hmem
  · obtain ⟨_, _, _, hcnt, _⟩ := expire_flows_spec ⟨hdc, hlen, hnd, hdir1, hdir2⟩ now
    exact hcnt
  · obtain ⟨_, _, _, _, hsub⟩ := expire_flows_spec ⟨hdc, hlen, hnd, hdir1, hdir2⟩ now
    exact hsub

theorem c9_witness :
    (∀ k s, lookupSlot (runFTOps (mkFlowTracker Nat 1) [FTOp.add 5 0]).flow_to_index k
        = some s →
      (runFTOps (mkFlowTracker Nat 1) [FTOp.add 5 0]).double_chain.is_index_allocated s
        = true ∧
      (runFTOps (mkFlowTracker Nat 1) [FTOp.add 5 0]).index_to_flow.getD s default = k) ∧
    (((runFTOps (mkFlowTracker Nat 1) [FTOp.add 5 0]).expire_flows 3).1 +
      ((runFTOps (mkFlowTracker Nat 1) [FTOp.add 5 0]).expire_flows 3).2.flow_to_index.length =
      (runFTOps (mkFlowTracker Nat 1) [FTOp.add 5 0]).flow_to_index.length) ∧
    (∀ k, ((runFTOps (mkFlowTracker Nat 1) [FTOp.add 5 0]).expire_flows 3).2.has_flow k
        = true →
      (runFTOps (mkFlowTracker Nat 1) [FTOp.add 5 0]).has_flow k = true) :=
  c9_mapping_consistency Nat 1 (by omega) [FTOp.add 5 0] 3

/-! ### Bounds of the constructor writes (capacity 0 is out of bounds) -/

theorem initFreeCellsAux_idx (k : Nat) :
    ∀ (cs : List dchain_cell_t) (i : Nat), (initFreeCellsAux cs i k).2 = i + k := by
  induction k with
  | zero => intro cs i; rfl
  | succ k ih =>
    intro cs i
    show (initFreeCellsAux _ (i + 1) k).2 = _
    rw [ih]
    omega

/-- C10: for capacity at least 1 every constructor write lands inside the
`capacity + 2` cell array, while for capacity 0 the final write targets
index 2 of a 2-element array — out of bounds — so the embedding (and any
use of the constructor) must assume `capacity ≥ 1`. -/
theorem c10_constructor_write_bounds :
    (∀ n, 1 ≤ n → ∀ i, i ∈ mkDoubleChainWriteIndices n → i < n + DCHAIN_RESERVED) ∧
    mkDoubleChainLastWriteIndex 0 = 2 ∧
    (List.replicate (0 + DCHAIN_RESERVED) (⟨0, 0⟩ : dchain_cell_t)).length = 2 ∧
    ¬ mkDoubleChainLastWriteIndex 0 <
      (List.replicate (0 + DCHAIN_RESERVED) (⟨0, 0⟩ : dchain_cell_t)).length := by
  have hlast : ∀ n, mkDoubleChainLastWriteIndex n = 2 + (n + 2 - 1 - 2) := by
    intro n
    rw [mkDoubleChainLastWriteIndex, initFreeCells, initFreeCellsAux_idx]
    rfl
  refine ⟨?_, by decide, by decide, by decide⟩
  intro n hn i hi
  show i < n + 2
  simp only [mkDoubleChainWriteIndices, DCHAIN_RESERVED, ALLOC_LIST_HEAD, FREE_LIST_HEAD,
    INDEX_SHIFT] at hi
  rcases List.mem_cons.1 hi with rfl | hi
  · omega
  rcases List.mem_cons.1 hi with rfl | hi
  · omega
  rcases List.mem_append.1 hi with hi | hi
  · have := List.mem_range'_1.1 hi
    omega
  · rw [List.mem_singleton] at hi
    rw [hi, hlast n]
    omega

theorem c10_witness : mkDoubleChainLastWriteIndex 1 < 1 + DCHAIN_RESERVED :=
  c10_constructor_write_bounds.1 1 (by omega) (mkDoubleChainLastWriteIndex 1)
    (by decide)
